import Mathlib

/-!
# Verification of the Omni meta-token core against its specification

This file shallowly embeds the parts of the Omni Core sources that the
verified claims are about, and proves (or refutes) each claim over that
embedding.

Conventions used throughout:

* LevelDB stores are modelled as Lean lists of (key, value) pairs kept in
  ascending key order; a `CDBaseIterator` prefix scan is then a scan of the
  corresponding sub-list, and `find?` over such a list returns exactly the
  entry the first matching iterator position would return.
* C++ `int64_t` values are modelled as `Int` together with explicit range
  hypotheses where overflow matters; `uint32_t` complement encodings
  (`~block`, big-endian) are modelled arithmetically.
* Strings (addresses, owner values) are Lean `String`s; an absent LevelDB
  value reads back as the empty string, exactly as `it->value().ToString()`
  of a missed lookup does in the source.
-/

namespace OmniCore

/-- Observable effect of the fatal-error paths (`AbortNode`,
`mastercore::MayAbortNode`): whether the node was aborted, and whether the
persisted state directory `MP_persist` was removed first. -/
structure AbortEffect where
  aborted : Bool
  removedPersist : Bool
deriving DecidableEq

/-- Largest `int64_t` value, `std::numeric_limits<int64_t>::max()`. -/
def INT64_MAX : Int := 9223372036854775807

/-! ## Fee cache overflow check (`COmniFeeCache::AddFee`, dbfees.cpp)

The guard at the top of `AddFee` reads the current cached amount, and when
`currentCachedAmount > 0 && amount > int64max - currentCachedAmount` it
removes the `MP_persist` directory (if it exists) and calls `AbortNode`,
unless the `-overrideforcedshutdown` option is set. -/

/-- The overflow guard of `COmniFeeCache::AddFee`, as an effect on the node:
`currentCachedAmount` is the value read by `GetCachedAmount`, `amount` the
fee being added, `overrideForcedShutdown` the `-overrideforcedshutdown`
option and `persistExists` whether the `MP_persist` directory exists. -/
def addFeeOverflowEffect (currentCachedAmount amount : Int)
    (overrideForcedShutdown persistExists : Bool) : AbortEffect :=
  if currentCachedAmount > 0 ∧ amount > INT64_MAX - currentCachedAmount then
    if overrideForcedShutdown then ⟨false, false⟩
    else ⟨true, persistExists⟩
  else ⟨false, false⟩

/-- C7: fee-cache overflow is fatal.  For every in-range current cached
amount and fee amount, the `AddFee` overflow path aborts the node (with the
"fee cache overflow" message) exactly when the new cumulative fee would
exceed `2^63 - 1` and `-overrideforcedshutdown` is not set, and in that case
the persisted checkpoint directory is removed (when it exists) before the
abort; with the override option set no abort occurs. -/
theorem spec_C7_feeCacheOverflowFatal (currentCachedAmount amount : Int)
    (overrideForcedShutdown persistExists : Bool)
    (hcur : 0 ≤ currentCachedAmount) (hamt : amount ≤ INT64_MAX) :
    ((addFeeOverflowEffect currentCachedAmount amount overrideForcedShutdown
        persistExists).aborted = true ↔
      (INT64_MAX < currentCachedAmount + amount ∧ overrideForcedShutdown = false)) ∧
    ((addFeeOverflowEffect currentCachedAmount amount overrideForcedShutdown
        persistExists).removedPersist = true ↔
      (INT64_MAX < currentCachedAmount + amount ∧ overrideForcedShutdown = false ∧
        persistExists = true)) := by
  unfold addFeeOverflowEffect
  by_cases hov : currentCachedAmount > 0 ∧ amount > INT64_MAX - currentCachedAmount
  · have hgt : INT64_MAX < currentCachedAmount + amount := by omega
    cases overrideForcedShutdown <;> cases persistExists <;>
      simp [hov, hgt]
  · have hle : ¬ INT64_MAX < currentCachedAmount + amount := by omega
    cases overrideForcedShutdown <;> cases persistExists <;>
      simp [hov, hle]

/-- Witness for C7 at a concrete input: adding 1 to a cache already holding
`2^63 - 1` without the override set aborts and removes the persisted state. -/
theorem spec_C7_feeCacheOverflowFatal_witness :
    (addFeeOverflowEffect INT64_MAX 1 false true).aborted = true ∧
    (addFeeOverflowEffect INT64_MAX 1 false true).removedPersist = true := by
  have h := spec_C7_feeCacheOverflowFatal INT64_MAX 1 false true
    (by decide) (by decide)
  exact ⟨h.1.mpr (by decide), h.2.mpr (by decide)⟩

/-! ## Historical issuer and delegate lookup (`CMPSPInfo::Entry`, dbspinfo.cpp)

`historicalIssuers` and `historicalDelegates` are
`std::map<std::pair<int,int>, std::string>` keyed by `(block, idx)` in
lexicographic order.  `getIssuer(block)` computes
`upper_bound({block, INT_MAX})` and, when that is not `begin()`, returns the
value of its predecessor, otherwise the current `issuer` field;
`getDelegate` is identical over the delegate map. -/

/-- Strict lexicographic order on `(block, idx)` keys, the order of the
`std::map` used for `historicalIssuers` and `historicalDelegates`. -/
def histKeyLt (a b : Int × Int) : Prop :=
  a.1 < b.1 ∨ (a.1 = b.1 ∧ a.2 < b.2)

/-- Non-strict lexicographic order on `(block, idx)` keys. -/
def histKeyLe (a b : Int × Int) : Prop :=
  a.1 < b.1 ∨ (a.1 = b.1 ∧ a.2 ≤ b.2)

instance (a b : Int × Int) : Decidable (histKeyLt a b) := by
  unfold histKeyLt; infer_instance

instance (a b : Int × Int) : Decidable (histKeyLe a b) := by
  unfold histKeyLe; infer_instance

/-- `INT_MAX`, the second component of the bound key used by `getIssuer`. -/
def INT_MAX : Int := 2147483647

/-- The `upper_bound` / predecessor walk shared by `getIssuer` and
`getDelegate`: scanning the map in ascending key order, the answer is the
value of the last entry whose key is not past `bound`, the accumulator
holding the fallback (initially the current issuer or delegate field). -/
def histLookup (acc : String) (bound : Int × Int) :
    List ((Int × Int) × String) → String
  | [] => acc
  | entry :: rest =>
    if histKeyLt bound entry.1 then acc else histLookup entry.2 bound rest

/-- `CMPSPInfo::Entry::getIssuer`: predecessor of
`historicalIssuers.upper_bound({block, INT_MAX})`, else the `issuer` field. -/
def getIssuer (issuer : String) (historicalIssuers : List ((Int × Int) × String))
    (block : Int) : String :=
  histLookup issuer (block, INT_MAX) historicalIssuers

/-- `CMPSPInfo::Entry::getDelegate`: predecessor of
`historicalDelegates.upper_bound({block, INT_MAX})`, else the `delegate`
field. -/
def getDelegate (delegate : String)
    (historicalDelegates : List ((Int × Int) × String)) (block : Int) : String :=
  histLookup delegate (block, INT_MAX) historicalDelegates

theorem histKeyLe_of_not_lt {a b : Int × Int} (h : ¬ histKeyLt a b) :
    histKeyLe b a := by
  obtain ⟨a1, a2⟩ := a; obtain ⟨b1, b2⟩ := b
  simp only [histKeyLt, histKeyLe, not_or, not_and, not_lt] at *
  omega

theorem histKey_lt_le_asymm {a b : Int × Int} (h1 : histKeyLt a b)
    (h2 : histKeyLe b a) : False := by
  obtain ⟨a1, a2⟩ := a; obtain ⟨b1, b2⟩ := b
  simp only [histKeyLt, histKeyLe] at *
  omega

theorem histKeyLt_trans {a b c : Int × Int} (h1 : histKeyLt a b)
    (h2 : histKeyLt b c) : histKeyLt a c := by
  obtain ⟨a1, a2⟩ := a; obtain ⟨b1, b2⟩ := b; obtain ⟨c1, c2⟩ := c
  simp only [histKeyLt] at *
  omega

/-- Over a strictly sorted history map, `histLookup` returns the fallback when
no key is at or below the bound, and the value of the greatest key at or
below the bound otherwise. -/
theorem histLookup_greatest (bound : Int × Int) :
    ∀ (l : List ((Int × Int) × String)) (acc : String),
      l.Pairwise (fun x y => histKeyLt x.1 y.1) →
      ((∀ x ∈ l, ¬ histKeyLe x.1 bound) → histLookup acc bound l = acc) ∧
      (∀ m ∈ l, histKeyLe m.1 bound →
        (∀ x ∈ l, histKeyLe x.1 bound → histKeyLe x.1 m.1) →
        histLookup acc bound l = m.2) := by
  intro l
  induction l with
  | nil => intro acc _; exact ⟨fun _ => rfl, fun m hm => absurd hm (by simp)⟩
  | cons entry rest ih =>
    intro acc hpw
    have hhead : ∀ y ∈ rest, histKeyLt entry.1 y.1 :=
      fun y hy => (List.pairwise_cons.mp hpw).1 y hy
    have hrest := (List.pairwise_cons.mp hpw).2
    by_cases hb : histKeyLt bound entry.1
    · constructor
      · intro _; simp [histLookup, hb]
      · intro m hm hle _
        rcases List.mem_cons.mp hm with rfl | hmr
        · exact absurd hle (fun hle' => histKey_lt_le_asymm hb hle')
        · exact absurd hle (fun hle' =>
            histKey_lt_le_asymm (histKeyLt_trans hb (hhead m hmr)) hle')
    · have hent : histKeyLe entry.1 bound := histKeyLe_of_not_lt hb
      constructor
      · intro hnone
        exact absurd hent (hnone entry (by simp))
      · intro m hm hle hmax
        have hstep : histLookup acc bound (entry :: rest) =
            histLookup entry.2 bound rest := by simp [histLookup, hb]
        rw [hstep]
        rcases List.mem_cons.mp hm with rfl | hmr
        · exact (ih m.2 hrest).1 (fun x hx hxle =>
            histKey_lt_le_asymm (hhead x hx) (hmax x (List.mem_cons_of_mem _ hx) hxle))
        · exact (ih entry.2 hrest).2 m hmr hle
            (fun x hx hxle => hmax x (List.mem_cons_of_mem _ hx) hxle)

/-- C6: historical issuer lookup.  Over the (sorted) history maps,
`getIssuer block` returns the current `issuer` field when no historical
entry has a key at or below `(block, INT_MAX)`, and otherwise returns the
value of the entry with the greatest such key; `getDelegate` obeys the
identical rule over the delegate map. -/
theorem spec_C6_historicalIssuerLookup (issuer delegate : String)
    (historicalIssuers historicalDelegates : List ((Int × Int) × String))
    (block : Int)
    (hI : historicalIssuers.Pairwise (fun x y => histKeyLt x.1 y.1))
    (hD : historicalDelegates.Pairwise (fun x y => histKeyLt x.1 y.1)) :
    ((∀ x ∈ historicalIssuers, ¬ histKeyLe x.1 (block, INT_MAX)) →
      getIssuer issuer historicalIssuers block = issuer) ∧
    (∀ m ∈ historicalIssuers, histKeyLe m.1 (block, INT_MAX) →
      (∀ x ∈ historicalIssuers, histKeyLe x.1 (block, INT_MAX) →
        histKeyLe x.1 m.1) →
      getIssuer issuer historicalIssuers block = m.2) ∧
    ((∀ x ∈ historicalDelegates, ¬ histKeyLe x.1 (block, INT_MAX)) →
      getDelegate delegate historicalDelegates block = delegate) ∧
    (∀ m ∈ historicalDelegates, histKeyLe m.1 (block, INT_MAX) →
      (∀ x ∈ historicalDelegates, histKeyLe x.1 (block, INT_MAX) →
        histKeyLe x.1 m.1) →
      getDelegate delegate historicalDelegates block = m.2) := by
  have h1 := histLookup_greatest (block, INT_MAX) historicalIssuers issuer hI
  have h2 := histLookup_greatest (block, INT_MAX) historicalDelegates delegate hD
  exact ⟨h1.1, h1.2, h2.1, h2.2⟩

/-- Witness for C6 at concrete inputs: with history entries at blocks 5 and 8,
a lookup at block 7 returns the block-5 issuer, and an empty delegate map
falls back to the current delegate field. -/
theorem spec_C6_historicalIssuerLookup_witness :
    getIssuer "addr0" [((5, 0), "addr5"), ((8, 1), "addr8")] 7 = "addr5" ∧
    getDelegate "dlg" [] 7 = "dlg" := by
  have h := spec_C6_historicalIssuerLookup "addr0" "dlg"
    [((5, 0), "addr5"), ((8, 1), "addr8")] [] 7 (by decide) (by decide)
  refine ⟨h.2.1 ((5, 0), "addr5") (by decide) (by decide) ?_, h.2.2.1 (by decide)⟩
  intro x hx hxle
  fin_cases hx
  · decide
  · exact absurd hxle (by decide)

/-! ## Pending transaction cache (mempool.cpp, validationinterface.cpp)

`mastercore::AddTransactionToMempool` is invoked from
`COmniValidationInterface::TransactionAddedToMempool` on every tx-added
notification and executes `mapMempool.insert_or_assign(tx->GetHash(), tx)`
unconditionally: the transaction contents (in particular the payload
marker) are not inspected.  `COmniValidationInterface::BlockConnected` ends
with `for (auto& tx : block->vtx) RemoveTransactionFromMempool(tx);`. -/

/-- A host transaction as far as the pending cache is concerned: its hash and
whether the protocol payload marker is present in it.  The add path never
reads `hasMarker`. -/
structure PendingTx where
  txid : Nat
  hasMarker : Bool
deriving DecidableEq

/-- `mastercore::AddTransactionToMempool`: `insert_or_assign` keyed by the
transaction hash into `mapMempool`. -/
def AddTransactionToMempool (cache : List PendingTx) (tx : PendingTx) :
    List PendingTx :=
  tx :: cache.filter (fun t => !(t.txid == tx.txid))

/-- `mastercore::RemoveTransactionFromMempool`: `mapMempool.erase(hash)`. -/
def RemoveTransactionFromMempool (cache : List PendingTx) (txid : Nat) :
    List PendingTx :=
  cache.filter (fun t => !(t.txid == txid))

/-- `mastercore::GetMempoolTransaction`: lookup in `mapMempool`. -/
def GetMempoolTransaction (cache : List PendingTx) (txid : Nat) :
    Option PendingTx :=
  cache.find? (fun t => t.txid == txid)

/-- The final loop of `COmniValidationInterface::BlockConnected`: every
transaction of the connected block is removed from the cache. -/
def blockConnectedMempoolSweep (cache : List PendingTx)
    (blockTxs : List PendingTx) : List PendingTx :=
  blockTxs.foldl (fun c tx => RemoveTransactionFromMempool c tx.txid) cache

/-- Claim C9 as stated: a transaction delivered by a tx-added notification is
remembered by the cache only if the payload marker was detected in it. -/
def markerCacheOnlyIfMarker : Prop :=
  ∀ (cache : List PendingTx) (tx : PendingTx),
    (GetMempoolTransaction (AddTransactionToMempool cache tx) tx.txid).isSome =
      true →
    tx.hasMarker = true

/-- Counterexample to C9: a marker-less transaction added from the mempool is
remembered by the cache all the same, refuting the "only if the payload
marker is detected" half of the claim. -/
theorem counter_C9_markerCache : ¬ markerCacheOnlyIfMarker := by
  intro h
  have := h [] ⟨1, false⟩ (by decide)
  simp at this

theorem mem_of_getMempool_some {cache : List PendingTx} {txid : Nat}
    {tx : PendingTx} (h : GetMempoolTransaction cache txid = some tx) :
    tx ∈ cache :=
  List.mem_of_find?_eq_some h

theorem getMempool_remove_self (cache : List PendingTx) (txid : Nat) :
    GetMempoolTransaction (RemoveTransactionFromMempool cache txid) txid =
      none := by
  unfold GetMempoolTransaction RemoveTransactionFromMempool
  rw [List.find?_eq_none]
  intro t ht
  have := (List.mem_filter.mp ht).2
  simpa using this

theorem getMempool_remove_none {cache : List PendingTx} {txid : Nat}
    (h : GetMempoolTransaction cache txid = none) (txid' : Nat) :
    GetMempoolTransaction (RemoveTransactionFromMempool cache txid') txid =
      none := by
  unfold GetMempoolTransaction RemoveTransactionFromMempool at *
  rw [List.find?_eq_none] at *
  intro t ht
  exact h t (List.mem_of_mem_filter ht)

theorem getMempool_sweep_none {cache : List PendingTx} {txid : Nat}
    (h : GetMempoolTransaction cache txid = none) (txs : List PendingTx) :
    GetMempoolTransaction (blockConnectedMempoolSweep cache txs) txid =
      none := by
  induction txs generalizing cache with
  | nil => exact h
  | cons t ts ih =>
    simp only [blockConnectedMempoolSweep, List.foldl_cons] at *
    exact ih (getMempool_remove_none h t.txid)

/-- C9 amended: on every tx-added notification the transaction is remembered
by the cache unconditionally, marker or not; and on block connect every
transaction included in the connected block is removed from the cache. -/
theorem spec_C9_amended_mempoolCache :
    (∀ (cache : List PendingTx) (tx : PendingTx),
      GetMempoolTransaction (AddTransactionToMempool cache tx) tx.txid =
        some tx) ∧
    (∀ (cache : List PendingTx) (blockTxs : List PendingTx),
      ∀ tx ∈ blockTxs,
        GetMempoolTransaction (blockConnectedMempoolSweep cache blockTxs)
          tx.txid = none) := by
  constructor
  · intro cache tx
    simp [GetMempoolTransaction, AddTransactionToMempool, List.find?]
  · intro cache blockTxs
    induction blockTxs generalizing cache with
    | nil => intro tx h; exact absurd h (by simp)
    | cons head tail ih =>
      intro tx htx
      rcases List.mem_cons.mp htx with rfl | hmem
      · simp only [blockConnectedMempoolSweep, List.foldl_cons]
        exact getMempool_sweep_none (getMempool_remove_self cache tx.txid) tail
      · exact ih (RemoveTransactionFromMempool cache head.txid) tx hmem

/-- Witness for C9's amended claim at a concrete input: adding a transaction
makes it retrievable, and connecting a block containing it removes it. -/
theorem spec_C9_amended_mempoolCache_witness :
    GetMempoolTransaction (AddTransactionToMempool [] ⟨1, false⟩) 1 =
      some ⟨1, false⟩ ∧
    GetMempoolTransaction
      (blockConnectedMempoolSweep [⟨1, false⟩, ⟨2, true⟩] [⟨1, false⟩]) 1 =
      none := by
  exact ⟨spec_C9_amended_mempoolCache.1 [] ⟨1, false⟩,
    spec_C9_amended_mempoolCache.2 [⟨1, false⟩, ⟨2, true⟩] [⟨1, false⟩]
      ⟨1, false⟩ (by decide)⟩

/-! ## Reorg decision (`COmniValidationInterface::RewindDBsState`,
`CMPTxList::CheckForFreezeTxs`)

The tx list stores one `CBlockTxKey` row per recorded transaction, with key
bytes `'b' ‖ be32(~block) ‖ txid` (`ser_writedata32be(s, ~block)`), so that
keys iterate in descending block order.  `CheckForFreezeTxs(blockHeight)`
seeks with `PartialKey<CBlockTxKey>(uint32_t(blockHeight))`, whose bytes are
`'b' ‖ le32(blockHeight)` — the raw `uint32_t` serialization is
little-endian and uncomplemented — and scans only keys that start with
those five bytes, checking each matched transaction's recorded type against
the four freeze-related types (185, 186, 71, 72). -/

/-- Big-endian bytes of a 32-bit value (`ser_writedata32be`). -/
def beBytes32 (n : Nat) : List Nat :=
  [n / 2 ^ 24 % 256, n / 2 ^ 16 % 256, n / 2 ^ 8 % 256, n % 256]

/-- Little-endian bytes of a 32-bit value (`ser_writedata32`, the default
`uint32_t` serialization used by `PartialKey`). -/
def leBytes32 (n : Nat) : List Nat :=
  [n % 256, n / 2 ^ 8 % 256, n / 2 ^ 16 % 256, n / 2 ^ 24 % 256]

/-- Bitwise complement on `uint32_t` (for `n < 2^32`). -/
def compl32 (n : Nat) : Nat := 4294967295 - n

/-- One transaction recorded in the tx list (`CMPTxList::recordTX` writes a
`CBlockTxKey` row and a `CTxKey` row carrying the type). -/
structure TxListRecord where
  block : Nat
  txid : List Nat
  txtype : Nat
deriving DecidableEq

/-- Key bytes of the record's `CBlockTxKey` row:
`'b' (0x62) ‖ be32(~block) ‖ txid`. -/
def blockTxKeyBytes (r : TxListRecord) : List Nat :=
  98 :: (beBytes32 (compl32 r.block) ++ r.txid)

/-- Bytes of `PartialKey<CBlockTxKey>(uint32_t(blockHeight))`:
`'b' (0x62) ‖ le32(blockHeight)`. -/
def freezeSeekKeyBytes (blockHeight : Nat) : List Nat :=
  98 :: leBytes32 blockHeight

/-- The four freeze-related transaction types
(`MSC_TYPE_FREEZE_PROPERTY_TOKENS`, `MSC_TYPE_UNFREEZE_PROPERTY_TOKENS`,
`MSC_TYPE_ENABLE_FREEZING`, `MSC_TYPE_DISABLE_FREEZING`). -/
def isFreezeType (t : Nat) : Bool :=
  t == 185 || t == 186 || t == 71 || t == 72

/-- `CMPTxList::CheckForFreezeTxs(blockHeight)`: the iterator visits exactly
the `CBlockTxKey` rows whose key starts with the partial key's bytes (rows
sharing that byte prefix are contiguous in key order, so the contiguous scan
visits all of them and nothing else), and returns true when one of them has
a freeze-related recorded type. -/
def CheckForFreezeTxs (records : List TxListRecord) (blockHeight : Nat) :
    Bool :=
  records.any (fun r =>
    (freezeSeekKeyBytes blockHeight).isPrefixOf (blockTxKeyBytes r) &&
      isFreezeType r.txtype)

/-- Outcome of the reorg decision in `RewindDBsState`. -/
inductive RewindOutcome where
  | rescanFromGenesis
  | rollbackTo (block : Int)
deriving DecidableEq

/-- The decision structure of `COmniValidationInterface::RewindDBsState`:
with `nHeight = pindex->nHeight - 1`, a full rescan (after
`clear_all_state()`) is forced when the freeze check fired, when no in-memory
state could be loaded (`best_state_block < 0`), or when the loaded state is
above `nHeight`; otherwise the databases are rolled back above
`best_state_block` and processing replays forward from it. -/
def rewindDecision (reorgContainsFreeze : Bool) (bestStateBlock nHeight : Int) :
    RewindOutcome :=
  if reorgContainsFreeze = true ∨ bestStateBlock < 0 ∨ bestStateBlock > nHeight
  then .rescanFromGenesis
  else .rollbackTo bestStateBlock

/-- `RewindDBsState` for a block connecting at height `pindexHeight` with the
given tx-list contents and result of `LoadMostRelevantInMemoryState`. -/
def RewindDBsState (records : List TxListRecord) (pindexHeight : Nat)
    (bestStateBlock : Int) : RewindOutcome :=
  rewindDecision (CheckForFreezeTxs records (pindexHeight - 1)) bestStateBlock
    (Int.ofNat (pindexHeight - 1))

/-- A freeze transaction (`MSC_TYPE_FREEZE_PROPERTY_TOKENS`) recorded at
block 100. -/
def freezeTxAt100 : TxListRecord :=
  ⟨100, List.replicate 32 0, 185⟩

/-- C1, failing input: the disconnected block at height 100 contained a
freeze transaction recorded in the tx list, and a persisted state for block 9
is loadable.  `CheckForFreezeTxs` nevertheless reports no freeze transaction
— the partial key `'b' ‖ le32(99)` can never be a byte prefix of a stored
key `'b' ‖ be32(~block) ‖ txid` at any realistic block — so `RewindDBsState`
takes the checkpoint-rollback path where the claim requires a forced full
rescan from genesis. -/
theorem code_C1_freezeCheckMisses :
    isFreezeType freezeTxAt100.txtype = true ∧
    99 < freezeTxAt100.block ∧
    CheckForFreezeTxs [freezeTxAt100] 99 = false ∧
    RewindDBsState [freezeTxAt100] 100 9 = .rollbackTo 9 := by
  refine ⟨by decide, by decide, by decide, ?_⟩
  have h : CheckForFreezeTxs [freezeTxAt100] 99 = false := by decide
  simp [RewindDBsState, rewindDecision, h]

/-- The freeze-check seek prefix for height 99 cannot match any stored
`CBlockTxKey` row whose block is below `2^31`: the first byte after the
table prefix is `le32(99)`'s low byte 99, while `be32(~block)` starts with a
byte of at least 128 for every such block. -/
theorem freezeSeek99_never_matches (r : TxListRecord) (hb : r.block < 2 ^ 31) :
    (freezeSeekKeyBytes 99).isPrefixOf (blockTxKeyBytes r) = false := by
  rw [Bool.eq_false_iff]
  intro htrue
  have hpre := List.isPrefixOf_iff_prefix.mp htrue
  simp only [freezeSeekKeyBytes, blockTxKeyBytes, leBytes32, beBytes32,
    List.cons_append] at hpre
  rw [List.cons_prefix_cons] at hpre
  obtain ⟨-, hpre⟩ := hpre
  rw [List.cons_prefix_cons] at hpre
  have hb1 := hpre.1
  have hpow : (2 : Nat) ^ 24 = 16777216 := by norm_num
  have hpow31 : (2 : Nat) ^ 31 = 2147483648 := by norm_num
  rw [hpow] at hb1
  rw [hpow31] at hb
  unfold compl32 at hb1
  omega

/-- Consequence: on any tx-list whose records are at realistic block heights,
`CheckForFreezeTxs 99` is false no matter how many freeze transactions the
list contains. -/
theorem checkForFreezeTxs99_always_false (records : List TxListRecord)
    (hb : ∀ r ∈ records, r.block < 2 ^ 31) :
    CheckForFreezeTxs records 99 = false := by
  unfold CheckForFreezeTxs
  rw [List.any_eq_false]
  intro r hr
  simp [freezeSeek99_never_matches r (hb r hr)]

/-! ## Fee cache and distribution (`COmniFeeCache`, `COmniFeeHistory`,
dbfees.cpp)

For one property, the fee cache rows are keyed
`'c' ‖ varint(propertyId) ‖ be32(~block)`, so they iterate in descending
block order and `GetCachedAmount` reads the first (most recent) row.
`PruneCache(propertyId, block)` seeks to the full key for
`pruneBlock = block + 1` and deletes every row from that position to the end
of the property's rows — with the descending order those are exactly the
rows whose block is at most `block + 1`.  `AddFee` writes the new cumulative
row at `block`, then calls `PruneCache(block)` and `EvalCache(block)`;
`EvalCache` re-reads the cached amount and distributes when it reaches the
stored distribution threshold, recording one fee-history record whose total
is the sum handed to the receivers. -/

/-- Per-property fee state: the cache rows `(block, cumulative amount)` in
descending block order, the stored `CDisTresholdKey` row, and the
`COmniFeeHistory` records `(block, total)`, newest first. -/
structure FeeCacheState where
  cache : List (Nat × Int)
  distributionThreshold : Option Int
  feeHistory : List (Nat × Int)
deriving DecidableEq

/-- `COmniFeeCache::GetCachedAmount`: the first (most recent) row, or 0. -/
def GetCachedAmount (st : FeeCacheState) : Int :=
  match st.cache with
  | [] => 0
  | entry :: _ => entry.2

/-- `COmniFeeCache::GetDistributionThreshold`: the stored threshold row, or
0 when absent. -/
def GetDistributionThreshold (st : FeeCacheState) : Int :=
  st.distributionThreshold.getD 0

/-- LevelDB `Put` of a cache row: insert or overwrite the row for `block`,
keeping the descending block order of the keys. -/
def writeCacheRecord : List (Nat × Int) → Nat → Int → List (Nat × Int)
  | [], block, v => [(block, v)]
  | entry :: rest, block, v =>
    if entry.1 < block then (block, v) :: entry :: rest
    else if entry.1 = block then (block, v) :: rest
    else entry :: writeCacheRecord rest block v

/-- `COmniFeeCache::PruneCache(propertyId, block)`: seek to the key of
`block + 1` and delete every row from there on; in the descending key order
this removes every row whose block is at most `block + 1` and keeps exactly
the rows above `block + 1`. -/
def PruneCache (st : FeeCacheState) (block : Nat) : FeeCacheState :=
  { st with cache := st.cache.filter (fun entry => decide (block + 1 < entry.1)) }

/-- `COmniFeeCache::ClearCache(propertyId, block)`: delete the row at `block`
and prune. -/
def ClearCache (st : FeeCacheState) (block : Nat) : FeeCacheState :=
  PruneCache
    { st with cache := st.cache.filter (fun entry => !(entry.1 == block)) }
    block

/-- `COmniFeeCache::DistributeCache`: hand the cached amount to the STO
receivers of the ecosystem's main token (`STO_GetReceivers`, supplied here
as the oracle `receivers`), record one fee-history record whose total is the
amount actually sent, and clear the cache. -/
def DistributeCache (st : FeeCacheState) (block : Nat)
    (receivers : Int → List (String × Int)) : FeeCacheState :=
  let cachedAmount := GetCachedAmount st
  let sent := ((receivers cachedAmount).map (fun p => p.2)).foldl (· + ·) 0
  ClearCache { st with feeHistory := (block, sent) :: st.feeHistory } block

/-- `COmniFeeCache::EvalCache`: distribute when the cached amount reaches the
distribution threshold. -/
def EvalCache (st : FeeCacheState) (block : Nat)
    (receivers : Int → List (String × Int)) : FeeCacheState :=
  if GetDistributionThreshold st ≤ GetCachedAmount st then
    DistributeCache st block receivers
  else st

/-- `COmniFeeCache::AddFee`: read the current cumulative fee, write the new
cumulative row at `block`, prune, then evaluate the cache against the
threshold.  (The overflow abort guard is modelled separately by
`addFeeOverflowEffect`.) -/
def AddFee (st : FeeCacheState) (block : Nat) (amount : Int)
    (receivers : Int → List (String × Int)) : FeeCacheState :=
  let currentCachedAmount := GetCachedAmount st
  let newCachedAmount := currentCachedAmount + amount
  let st1 : FeeCacheState :=
    { st with cache := writeCacheRecord st.cache block newCachedAmount }
  EvalCache (PruneCache st1 block) block receivers

/-- C2, failing input: property with stored distribution threshold 10, cache
holding a cumulative fee of 5 recorded at block 5, and `AddFee` of 6 at
block 6, which makes the newest cumulative fee 11 ≥ 10.  The claim requires
the cache to be zeroed by a distribution and exactly one fee-history record
to be appended; instead `PruneCache` deletes the row `AddFee` just wrote
(its seek key for block 7 sorts before the block-6 row in the descending
order), so `EvalCache` sees an empty cache, no distribution happens and no
history record is written — the accumulated fees simply vanish. -/
theorem code_C2_feeThresholdNotTriggered :
    (GetDistributionThreshold ⟨[(5, 5)], some 10, []⟩ ≤ 5 + 6) ∧
    AddFee ⟨[(5, 5)], some 10, []⟩ 6 6 (fun _ => []) =
      ⟨[], some 10, []⟩ := by
  constructor
  · decide
  · rfl

theorem mem_writeCacheRecord {cache : List (Nat × Int)} {block : Nat}
    {v : Int} {entry : Nat × Int}
    (h : entry ∈ writeCacheRecord cache block v) :
    entry = (block, v) ∨ entry ∈ cache := by
  induction cache with
  | nil => simpa [writeCacheRecord] using h
  | cons head rest ih =>
    unfold writeCacheRecord at h
    by_cases h1 : head.1 < block
    · simp only [if_pos h1, List.mem_cons] at h
      rcases h with h | h | h
      · exact Or.inl h
      · exact Or.inr (by simp [h])
      · exact Or.inr (List.mem_cons_of_mem _ h)
    · by_cases h2 : head.1 = block
      · simp only [if_neg h1, if_pos h2, List.mem_cons] at h
        rcases h with h | h
        · exact Or.inl h
        · exact Or.inr (List.mem_cons_of_mem _ h)
      · simp only [if_neg h1, if_neg h2, List.mem_cons] at h
        rcases h with h | h
        · exact Or.inr (by simp [h])
        · rcases ih h with h | h
          · exact Or.inl h
          · exact Or.inr (List.mem_cons_of_mem _ h)

/-- The prune bug in general: whenever `AddFee` runs at a block at or above
every block already in the cache (the normal situation — fees arrive at the
current block) and the stored distribution threshold is positive, the
resulting cache is empty and the fee history is untouched, no matter how
large the accumulated fee was. -/
theorem addFee_discards_cache (st : FeeCacheState) (block : Nat)
    (amount : Int) (receivers : Int → List (String × Int))
    (hblocks : ∀ entry ∈ st.cache, entry.1 ≤ block)
    (hthr : 0 < GetDistributionThreshold st) :
    (AddFee st block amount receivers).cache = [] ∧
    (AddFee st block amount receivers).feeHistory = st.feeHistory := by
  set st1 : FeeCacheState := { st with cache := writeCacheRecord st.cache block (GetCachedAmount st + amount) } with hst1
  have hAdd : AddFee st block amount receivers =
      EvalCache (PruneCache st1 block) block receivers := rfl
  have hpruned : (PruneCache st1 block).cache = [] := by
    simp only [PruneCache, List.filter_eq_nil_iff, hst1]
    intro entry hmem
    rcases mem_writeCacheRecord hmem with h | h
    · simp [h]
    · have := hblocks entry h
      simp only [decide_eq_true_eq]
      omega
  have hcached : GetCachedAmount (PruneCache st1 block) = 0 := by
    unfold GetCachedAmount
    rw [hpruned]
  have hthr2 : GetDistributionThreshold (PruneCache st1 block) =
      GetDistributionThreshold st := rfl
  rw [hAdd]
  unfold EvalCache
  rw [if_neg (by rw [hcached, hthr2]; omega)]
  exact ⟨hpruned, rfl⟩

/-! ## Property registry rollback (`CMPSPInfo`, dbspinfo.cpp)

Registry records are keyed `'s' ‖ varint(propertyId) ‖ be32inv(block)`
(`CUpdatePropertyKey`), so each property's records iterate newest block
first; `getSP` returns the first record of the property's prefix scan.
`deleteSPAboveBlock(block)` iterates each property's records from the
newest, breaking as soon as `key.block < block`, deletes every record it
visited and — when a deleted record has `creation_block == update_block`
(the creation record) — also deletes the `CLookupTxKey` row for the
property's creation transaction. -/

/-- One stored registry record of a property.  `keyBlock` is the block
component of its `CUpdatePropertyKey`; `creationBlock` and `updateBlock`
stand for the `Entry::creation_block` and `Entry::update_block` block hashes
(identified here with the heights of the blocks they hash). -/
structure SpRecord where
  keyBlock : Nat
  creationBlock : Nat
  updateBlock : Nat
deriving DecidableEq

/-- `CMPSPInfo::getSP` for one property: the first (newest) record of the
property's prefix scan, if any. -/
def getSP (records : List SpRecord) : Option SpRecord :=
  records.head?

/-- `CMPSPInfo::deleteSPAboveBlock` restricted to one property: walk the
records newest-first, stop at the first record with `keyBlock < block`,
delete the visited prefix; the second component reports whether the
tx-lookup row was deleted, which happens when a visited record is the
creation record (`creation_block == update_block`). -/
def deleteSPAboveBlock (records : List SpRecord) (block : Nat) :
    List SpRecord × Bool :=
  let deleted := records.takeWhile (fun r => decide (block ≤ r.keyBlock))
  (records.dropWhile (fun r => decide (block ≤ r.keyBlock)),
    deleted.any (fun r => r.creationBlock == r.updateBlock))

/-- Well-formed record list of one property: records are strictly descending
in their key block, each record's `update_block` matches the block of its
key, and the oldest record is the creation record. -/
def WfSpRecords (records : List SpRecord) : Prop :=
  records.Pairwise (fun a b => b.keyBlock < a.keyBlock) ∧
  (∀ r ∈ records, r.updateBlock = r.keyBlock) ∧
  (∀ last, records.getLast? = some last → last.creationBlock = last.updateBlock)

/-- C5: property-registry rollback.  For a property whose current record has
`update_block ≥ block`, after `deleteSPAboveBlock block`: if some record
with `update_block < block` remains, `getSP` returns the most recent of
those; if none exists, the property's records are all gone (`getSP` fails)
and the creation-tx lookup row was deleted as well. -/
theorem dropWhile_head_newest_below {records : List SpRecord} {block : Nat}
    (hsorted : records.Pairwise (fun a b => b.keyBlock < a.keyBlock)) :
    ∀ r ∈ records, r.keyBlock < block →
      (∀ r' ∈ records, r'.keyBlock < block → r'.keyBlock ≤ r.keyBlock) →
      (records.dropWhile (fun x => decide (block ≤ x.keyBlock))).head? =
        some r := by
  induction records with
  | nil => intro r hr; exact absurd hr (by simp)
  | cons head rest ih =>
    intro r hr hrlt hrmax
    by_cases hhead : block ≤ head.keyBlock
    · have hrtail : r ∈ rest := by
        rcases List.mem_cons.mp hr with rfl | h
        · omega
        · exact h
      rw [List.dropWhile_cons, if_pos (by simpa using hhead)]
      exact ih (List.pairwise_cons.mp hsorted).2 r hrtail hrlt
        (fun r' hr' h' => hrmax r' (List.mem_cons_of_mem _ hr') h')
    · rw [List.dropWhile_cons, if_neg (by simpa using hhead)]
      have hhlt : head.keyBlock < block := by omega
      have hle := hrmax head (by simp) hhlt
      rcases List.mem_cons.mp hr with rfl | h
      · rfl
      · have := (List.pairwise_cons.mp hsorted).1 r h
        omega

/-- C5: property-registry rollback.  For a property whose current record has
`update_block ≥ block`, after `deleteSPAboveBlock block`: if some record
with `update_block < block` remains, `getSP` returns the most recent of
those; if none exists, the property's records are all gone (`getSP` fails)
and the creation-tx lookup row was deleted as well. -/
theorem spec_C5_registryRollback (records : List SpRecord) (block : Nat)
    (hwf : WfSpRecords records)
    (cur : SpRecord) (hcur : records.head? = some cur)
    (hcurrent : block ≤ cur.updateBlock) :
    (∀ r ∈ records, r.updateBlock < block →
      (∀ r' ∈ records, r'.updateBlock < block → r'.updateBlock ≤ r.updateBlock) →
      getSP (deleteSPAboveBlock records block).1 = some r) ∧
    ((∀ r ∈ records, block ≤ r.updateBlock) →
      getSP (deleteSPAboveBlock records block).1 = none ∧
      (deleteSPAboveBlock records block).2 = true) := by
  obtain ⟨hsorted, hcoh, hcreation⟩ := hwf
  constructor
  · intro r hr hrlt hrmax
    have hrk : r.keyBlock < block := by rw [← hcoh r hr]; exact hrlt
    refine dropWhile_head_newest_below hsorted r hr hrk ?_
    intro r' hr' h'
    have h1 := hrmax r' hr' (by rw [hcoh r' hr']; exact h')
    rw [hcoh r' hr', hcoh r hr] at h1
    exact h1
  · intro hall
    have hallkey : ∀ x ∈ records, (fun x => decide (block ≤ x.keyBlock)) x =
        true := by
      intro x hx
      have := hall x hx
      rw [hcoh x hx] at this
      simpa using this
    have hdrop : records.dropWhile (fun x => decide (block ≤ x.keyBlock)) =
        [] := List.dropWhile_eq_nil_iff.mpr (fun x hx => by
          simpa using hallkey x hx)
    have htake : records.takeWhile (fun x => decide (block ≤ x.keyBlock)) =
        records := List.takeWhile_eq_self_iff.mpr hallkey
    have hne : records ≠ [] := by
      intro hnil
      rw [hnil] at hcur
      exact absurd hcur (by simp)
    have hlast : records.getLast? = some (records.getLast hne) :=
      List.getLast?_eq_getLast_of_ne_nil hne
    refine ⟨by simp [getSP, deleteSPAboveBlock, hdrop], ?_⟩
    simp only [deleteSPAboveBlock, htake]
    rw [List.any_eq_true]
    exact ⟨records.getLast hne, List.getLast_mem hne, by
      simp [hcreation _ hlast]⟩

/-- Witness for C5 at a concrete input: a property created at block 3 and
updated at block 5 is rolled back above block 4, after which `getSP` returns
the block-3 creation record. -/
theorem spec_C5_registryRollback_witness :
    getSP (deleteSPAboveBlock [⟨5, 3, 5⟩, ⟨3, 3, 3⟩] 4).1 =
      some ⟨3, 3, 3⟩ := by
  have hwf : WfSpRecords [⟨5, 3, 5⟩, ⟨3, 3, 3⟩] := by
    refine ⟨by decide, by decide, ?_⟩
    intro last hlast
    simp only [List.getLast?] at hlast
    cases hlast
    rfl
  have h := spec_C5_registryRollback [⟨5, 3, 5⟩, ⟨3, 3, 3⟩] 4 hwf
    ⟨5, 3, 5⟩ rfl (by decide)
  refine h.1 ⟨3, 3, 3⟩ (by decide) (by decide) ?_
  intro r' hr' hlt
  fin_cases hr'
  · exact absurd hlt (by decide)
  · decide

/-! ## NFT end-of-block sanity check (`CMPNonFungibleTokensDB::SanityCheck`,
nftdb.cpp)

`SanityCheck` iterates every key of the NFT database, builds a
`std::map<uint32_t, int64_t>` mapping each property with `RangeIndex` rows
to the maximum stored range end, and compares each of those maxima against
`mastercore::getTotalTokens`.  On a mismatch it calls `AbortNode(abortMsg)`
directly — not `mastercore::MayAbortNode` — so the abort neither consults
`-overrideforcedshutdown` nor removes the `MP_persist` directory. -/

/-- The `NonFungibleStorage` enumeration of nftdb.h. -/
inductive NonFungibleStorage where
  | NoneKind
  | RangeIndex
  | IssuerData
  | HolderData
  | GrantData
deriving DecidableEq

/-- One key of the NFT database, as parsed by `parseNFTKey`. -/
structure NftKeyRec where
  propertyId : Nat
  storage : NonFungibleStorage
  tokenIdStart : Int
  tokenIdEnd : Int
deriving DecidableEq

/-- `totals[propertyId] = max(totals[propertyId], tokenIdEnd)` on the
association list modelling the `std::map<uint32_t,int64_t>` (a fresh entry
default-initializes to 0 first). -/
def totalsBump : List (Nat × Int) → Nat → Int → List (Nat × Int)
  | [], p, e => [(p, max 0 e)]
  | entry :: rest, p, e =>
    if entry.1 = p then (entry.1, max entry.2 e) :: rest
    else entry :: totalsBump rest p e

/-- The totals map built by the iteration loop of `SanityCheck`. -/
def sanityTotals (entries : List NftKeyRec) : List (Nat × Int) :=
  entries.foldl
    (fun acc r =>
      if r.storage = NonFungibleStorage.RangeIndex then
        totalsBump acc r.propertyId r.tokenIdEnd
      else acc)
    []

/-- The comparison loop of `SanityCheck`: the node is aborted iff some
property's recorded maximum differs from `getTotalTokens`. -/
def SanityCheckAborts (entries : List NftKeyRec)
    (getTotalTokens : Nat → Int) : Bool :=
  (sanityTotals entries).any (fun pm => !(getTotalTokens pm.1 == pm.2))

/-- The node-level effect of `SanityCheck`: `AbortNode` is called directly on
a mismatch, so the abort happens regardless of `-overrideforcedshutdown` and
the persisted state directory is never removed.  (The two `Bool` parameters
are accepted to expose exactly that independence.) -/
def SanityCheckEffect (entries : List NftKeyRec) (getTotalTokens : Nat → Int)
    (overrideForcedShutdown persistExists : Bool) : AbortEffect :=
  ⟨SanityCheckAborts entries getTotalTokens, false⟩

/-- The highest stored `RangeIndex` range end of a property (0 when the
property has no rows), the quantity the claim compares with the tally
total. -/
def highestStoredEnd (entries : List NftKeyRec) (p : Nat) : Int :=
  entries.foldl
    (fun m r =>
      if r.storage = NonFungibleStorage.RangeIndex ∧ r.propertyId = p then
        max m r.tokenIdEnd
      else m)
    0

/-- Claim C8 as stated: a mismatch between the highest stored range end and
the tally total aborts the node, and — as for all consistency errors — the
abort removes the persisted checkpoint directory unless the override option
is set (so with the override set there is no abort). -/
def sanityMismatchAbortsWithOverride : Prop :=
  ∀ (entries : List NftKeyRec) (getTotalTokens : Nat → Int)
    (persistExists : Bool) (r : NftKeyRec),
    r ∈ entries → r.storage = NonFungibleStorage.RangeIndex →
    getTotalTokens r.propertyId ≠ highestStoredEnd entries r.propertyId →
    (SanityCheckEffect entries getTotalTokens true persistExists).aborted =
      false ∧
    (SanityCheckEffect entries getTotalTokens false true).removedPersist =
      true

/-- Counterexample to C8's abort-path clause: a property holding range
[1..5] while the tally reports 7 tokens aborts the node even though
`-overrideforcedshutdown` is set, and the persisted state directory is not
removed: `SanityCheck` calls `AbortNode` directly instead of
`mastercore::MayAbortNode`. -/
theorem counter_C8_sanityAbortPath : ¬ sanityMismatchAbortsWithOverride := by
  intro h
  have := h [⟨1, NonFungibleStorage.RangeIndex, 1, 5⟩] (fun _ => 7) true
    ⟨1, NonFungibleStorage.RangeIndex, 1, 5⟩ (by decide) rfl (by decide)
  revert this
  decide

/-- Association-list lookup into the totals map. -/
def totalsGet (acc : List (Nat × Int)) (q : Nat) : Option Int :=
  (acc.find? (fun pm => pm.1 == q)).map Prod.snd

/-- The recursion underlying the `SanityCheck` iteration loop. -/
def sanityTotalsAux (acc : List (Nat × Int)) : List NftKeyRec → List (Nat × Int)
  | [] => acc
  | r :: rest =>
    sanityTotalsAux
      (if r.storage = NonFungibleStorage.RangeIndex then
        totalsBump acc r.propertyId r.tokenIdEnd
      else acc) rest

theorem sanityTotals_eq_aux (entries : List NftKeyRec) :
    sanityTotals entries = sanityTotalsAux [] entries := by
  suffices h : ∀ acc, entries.foldl
      (fun acc r =>
        if r.storage = NonFungibleStorage.RangeIndex then
          totalsBump acc r.propertyId r.tokenIdEnd
        else acc) acc = sanityTotalsAux acc entries by
    exact h []
  induction entries with
  | nil => intro acc; rfl
  | cons r rest ih => intro acc; simp only [List.foldl_cons, sanityTotalsAux, ih]

theorem totalsGet_nil (q : Nat) : totalsGet [] q = none := rfl

theorem totalsGet_cons (k : Nat) (v : Int) (l : List (Nat × Int)) (q : Nat) :
    totalsGet ((k, v) :: l) q = if k = q then some v else totalsGet l q := by
  by_cases h : k = q
  · simp [totalsGet, List.find?_cons_of_pos, h]
  · have : ((k, v).1 == q) = false := by simpa using h
    simp [totalsGet, List.find?_cons_of_neg, this, h]

theorem totalsGet_totalsBump (acc : List (Nat × Int)) (p : Nat) (e : Int)
    (q : Nat) :
    totalsGet (totalsBump acc p e) q =
      if q = p then some (max ((totalsGet acc p).getD 0) e)
      else totalsGet acc q := by
  induction acc with
  | nil =>
    by_cases hq : q = p
    · subst hq
      rw [show totalsBump [] q e = [(q, max 0 e)] from rfl, totalsGet_cons,
        if_pos rfl, if_pos rfl, totalsGet_nil]
      rfl
    · rw [show totalsBump [] p e = [(p, max 0 e)] from rfl, totalsGet_cons,
        if_neg (fun hc : p = q => hq hc.symm), if_neg hq]
  | cons entry rest ih =>
    obtain ⟨k, v⟩ := entry
    by_cases h1 : k = p
    · have hb : totalsBump ((k, v) :: rest) p e = (k, max v e) :: rest := by
        simp [totalsBump, h1]
      by_cases hq : q = p
      · subst hq
        rw [hb, totalsGet_cons, if_pos h1, if_pos rfl, totalsGet_cons,
          if_pos h1]
        rfl
      · have hkq : ¬ k = q := fun hc => hq (hc ▸ h1)
        rw [hb, totalsGet_cons, if_neg hkq, if_neg hq, totalsGet_cons,
          if_neg hkq]
    · have hb : totalsBump ((k, v) :: rest) p e =
          (k, v) :: totalsBump rest p e := by
        simp [totalsBump, h1]
      by_cases hkq : k = q
      · have hq : ¬ q = p := fun hc => h1 (hkq.trans hc)
        rw [hb, totalsGet_cons, if_pos hkq, if_neg hq, totalsGet_cons,
          if_pos hkq]
      · rw [hb, totalsGet_cons, if_neg hkq, ih]
        by_cases hq : q = p
        · rw [if_pos hq, if_pos hq, totalsGet_cons, if_neg h1]
        · rw [if_neg hq, if_neg hq, totalsGet_cons, if_neg hkq]

/-- Whether a property has at least one `RangeIndex` row among the entries. -/
def hasRangeIndexRow (entries : List NftKeyRec) (q : Nat) : Bool :=
  entries.any (fun r =>
    r.storage == NonFungibleStorage.RangeIndex && r.propertyId == q)

/-- Maximum `RangeIndex` end for property `q`, folded from seed `m`. -/
def maxEndsFrom (m : Int) (entries : List NftKeyRec) (q : Nat) : Int :=
  entries.foldl
    (fun m r =>
      if r.storage = NonFungibleStorage.RangeIndex ∧ r.propertyId = q then
        max m r.tokenIdEnd
      else m) m

theorem maxEndsFrom_no_rows {entries : List NftKeyRec} {q : Nat}
    (h : hasRangeIndexRow entries q = false) (m : Int) :
    maxEndsFrom m entries q = m := by
  induction entries generalizing m with
  | nil => rfl
  | cons r rest ih =>
    simp only [hasRangeIndexRow, List.any_cons, Bool.or_eq_false_iff,
      Bool.and_eq_false_iff] at h
    obtain ⟨h1, h2⟩ := h
    have hcond : ¬ (r.storage = NonFungibleStorage.RangeIndex ∧
        r.propertyId = q) := by
      intro ⟨ha, hb⟩
      rcases h1 with h1 | h1 <;> simp [ha, hb] at h1
    simp only [maxEndsFrom, List.foldl_cons, if_neg hcond]
    exact ih (by simpa [hasRangeIndexRow] using h2) m

theorem maxEndsFrom_cons_pos {r : NftKeyRec} {q : Nat}
    (hcond : r.storage = NonFungibleStorage.RangeIndex ∧ r.propertyId = q)
    (m : Int) (rest : List NftKeyRec) :
    maxEndsFrom m (r :: rest) q = maxEndsFrom (max m r.tokenIdEnd) rest q := by
  simp only [maxEndsFrom, List.foldl_cons]
  rw [if_pos hcond]

theorem maxEndsFrom_cons_neg {r : NftKeyRec} {q : Nat}
    (hcond : ¬ (r.storage = NonFungibleStorage.RangeIndex ∧ r.propertyId = q))
    (m : Int) (rest : List NftKeyRec) :
    maxEndsFrom m (r :: rest) q = maxEndsFrom m rest q := by
  simp only [maxEndsFrom, List.foldl_cons]
  rw [if_neg hcond]

theorem totalsGet_sanityTotalsAux (entries : List NftKeyRec) :
    ∀ (acc : List (Nat × Int)) (q : Nat),
      totalsGet (sanityTotalsAux acc entries) q =
        if hasRangeIndexRow entries q = true then
          some (maxEndsFrom ((totalsGet acc q).getD 0) entries q)
        else totalsGet acc q := by
  induction entries with
  | nil => intro acc q; simp [sanityTotalsAux, hasRangeIndexRow]
  | cons r rest ih =>
    intro acc q
    by_cases hri : r.storage = NonFungibleStorage.RangeIndex
    · have hstep : sanityTotalsAux acc (r :: rest) =
          sanityTotalsAux (totalsBump acc r.propertyId r.tokenIdEnd) rest := by
        simp [sanityTotalsAux, hri]
      by_cases hq : r.propertyId = q
      · subst hq
        have hcond : r.storage = NonFungibleStorage.RangeIndex ∧
            r.propertyId = r.propertyId := ⟨hri, rfl⟩
        have hhas : hasRangeIndexRow (r :: rest) r.propertyId = true := by
          simp [hasRangeIndexRow, hri]
        have hbump : totalsGet (totalsBump acc r.propertyId r.tokenIdEnd)
            r.propertyId =
            some (max ((totalsGet acc r.propertyId).getD 0) r.tokenIdEnd) := by
          rw [totalsGet_totalsBump, if_pos rfl]
        rw [hstep, ih, hhas,
          maxEndsFrom_cons_pos hcond ((totalsGet acc r.propertyId).getD 0) rest]
        by_cases hrest : hasRangeIndexRow rest r.propertyId = true
        · simp [hrest, hbump]
        · have hrest' : hasRangeIndexRow rest r.propertyId = false := by
            simpa using hrest
          simp [hrest, hbump,
            maxEndsFrom_no_rows hrest'
              (max ((totalsGet acc r.propertyId).getD 0) r.tokenIdEnd)]
      · have hcond : ¬ (r.storage = NonFungibleStorage.RangeIndex ∧
            r.propertyId = q) := fun hc => hq hc.2
        have hhas : hasRangeIndexRow (r :: rest) q = hasRangeIndexRow rest q := by
          simp [hasRangeIndexRow, List.any_cons, hq]
        have hbump : totalsGet (totalsBump acc r.propertyId r.tokenIdEnd) q =
            totalsGet acc q := by
          rw [totalsGet_totalsBump, if_neg (fun hc => hq hc.symm)]
        rw [hstep, ih, hhas, hbump,
          maxEndsFrom_cons_neg hcond ((totalsGet acc q).getD 0) rest]
    · have hstep : sanityTotalsAux acc (r :: rest) =
          sanityTotalsAux acc rest := by
        simp [sanityTotalsAux, hri]
      have hcond : ¬ (r.storage = NonFungibleStorage.RangeIndex ∧
          r.propertyId = q) := fun hc => hri hc.1
      have hhas : hasRangeIndexRow (r :: rest) q = hasRangeIndexRow rest q := by
        simp [hasRangeIndexRow, List.any_cons, hri]
      rw [hstep, ih, hhas,
        maxEndsFrom_cons_neg hcond ((totalsGet acc q).getD 0) rest]

theorem mem_keys_totalsBump {acc : List (Nat × Int)} {p : Nat} {e : Int}
    {q : Nat} :
    q ∈ (totalsBump acc p e).map Prod.fst ↔
      q ∈ acc.map Prod.fst ∨ q = p := by
  induction acc with
  | nil => simp [totalsBump]
  | cons entry rest ih =>
    by_cases h1 : entry.1 = p
    · have hb : totalsBump (entry :: rest) p e =
          (entry.1, max entry.2 e) :: rest := by simp [totalsBump, h1]
      rw [hb]
      simp only [List.map_cons, List.mem_cons, h1]
      tauto
    · have hb : totalsBump (entry :: rest) p e =
          entry :: totalsBump rest p e := by simp [totalsBump, h1]
      rw [hb]
      simp only [List.map_cons, List.mem_cons, ih]
      tauto

theorem nodup_keys_totalsBump {acc : List (Nat × Int)} {p : Nat} {e : Int}
    (h : (acc.map Prod.fst).Nodup) :
    ((totalsBump acc p e).map Prod.fst).Nodup := by
  induction acc with
  | nil => simp [totalsBump]
  | cons entry rest ih =>
    rw [List.map_cons, List.nodup_cons] at h
    by_cases h1 : entry.1 = p
    · subst h1
      simpa [totalsBump, List.nodup_cons] using h
    · simp only [totalsBump, if_neg h1, List.map_cons, List.nodup_cons]
      refine ⟨fun hc => ?_, ih h.2⟩
      rcases mem_keys_totalsBump.mp hc with hc | hc
      · exact h.1 hc
      · exact h1 hc

theorem nodup_keys_sanityTotalsAux (entries : List NftKeyRec) :
    ∀ acc : List (Nat × Int), (acc.map Prod.fst).Nodup →
      ((sanityTotalsAux acc entries).map Prod.fst).Nodup := by
  induction entries with
  | nil => intro acc h; exact h
  | cons r rest ih =>
    intro acc h
    by_cases hri : r.storage = NonFungibleStorage.RangeIndex
    · simpa [sanityTotalsAux, hri] using
        ih (totalsBump acc r.propertyId r.tokenIdEnd) (nodup_keys_totalsBump h)
    · simpa [sanityTotalsAux, hri] using ih acc h

theorem mem_of_totalsGet {acc : List (Nat × Int)} {q : Nat} {m : Int}
    (h : totalsGet acc q = some m) : (q, m) ∈ acc := by
  unfold totalsGet at h
  obtain ⟨pm, hfind, hsnd⟩ := Option.map_eq_some'.mp h
  have hmem := List.mem_of_find?_eq_some hfind
  have hkey : (pm.1 == q) = true := (List.find?_eq_some.mp hfind).1
  have : pm = (q, m) := by
    obtain ⟨a, b⟩ := pm
    simp only [beq_iff_eq] at hkey
    simp only at hsnd
    simp [hkey, hsnd]
  exact this ▸ hmem

theorem totalsGet_of_mem {acc : List (Nat × Int)} {q : Nat} {m : Int}
    (hnd : (acc.map Prod.fst).Nodup) (hmem : (q, m) ∈ acc) :
    totalsGet acc q = some m := by
  induction acc with
  | nil => exact absurd hmem (by simp)
  | cons entry rest ih =>
    obtain ⟨k, v⟩ := entry
    rw [List.map_cons, List.nodup_cons] at hnd
    rcases List.mem_cons.mp hmem with heq | hmem'
    · cases heq
      rw [totalsGet_cons, if_pos rfl]
    · have hk : ¬ k = q := by
        intro hc
        subst hc
        exact hnd.1 (List.mem_map.mpr ⟨(k, m), hmem', rfl⟩)
      rw [totalsGet_cons, if_neg hk]
      exact ih hnd.2 hmem'

theorem totalsGet_sanityTotals (entries : List NftKeyRec) (q : Nat) :
    totalsGet (sanityTotals entries) q =
      if hasRangeIndexRow entries q = true then
        some (highestStoredEnd entries q)
      else none := by
  rw [sanityTotals_eq_aux, totalsGet_sanityTotalsAux entries [] q]
  rfl

/-- C8 amended: at end of block, a mismatch between the highest stored
`RangeIndex` range end of some property and the tally total for that
property aborts the node unconditionally — `SanityCheck` calls `AbortNode`
directly, so the `-overrideforcedshutdown` option is not consulted and the
persisted checkpoint directory is not removed. -/
theorem spec_C8_amended_sanityAbort (entries : List NftKeyRec)
    (getTotalTokens : Nat → Int) (overrideForcedShutdown persistExists : Bool) :
    ((SanityCheckEffect entries getTotalTokens overrideForcedShutdown
        persistExists).aborted = true ↔
      ∃ r ∈ entries, r.storage = NonFungibleStorage.RangeIndex ∧
        getTotalTokens r.propertyId ≠ highestStoredEnd entries r.propertyId) ∧
    (SanityCheckEffect entries getTotalTokens overrideForcedShutdown
        persistExists).removedPersist = false := by
  refine ⟨?_, rfl⟩
  show SanityCheckAborts entries getTotalTokens = true ↔ _
  unfold SanityCheckAborts
  rw [List.any_eq_true]
  constructor
  · rintro ⟨pm, hpm, hpred⟩
    have hnd : ((sanityTotals entries).map Prod.fst).Nodup := by
      rw [sanityTotals_eq_aux]
      exact nodup_keys_sanityTotalsAux entries [] (by simp)
    obtain ⟨p, m⟩ := pm
    have hget := totalsGet_of_mem hnd hpm
    rw [totalsGet_sanityTotals] at hget
    by_cases hhas : hasRangeIndexRow entries p = true
    · rw [if_pos hhas] at hget
      obtain ⟨r, hr, hrprop⟩ := List.any_eq_true.mp hhas
      rw [Bool.and_eq_true, beq_iff_eq, beq_iff_eq] at hrprop
      refine ⟨r, hr, hrprop.1, ?_⟩
      rw [hrprop.2]
      have hm : m = highestStoredEnd entries p := by
        cases hget
        rfl
      subst hm
      simpa using hpred
    · rw [if_neg hhas] at hget
      exact absurd hget (by simp)
  · rintro ⟨r, hr, hri, hmis⟩
    have hhas : hasRangeIndexRow entries r.propertyId = true := by
      rw [hasRangeIndexRow, List.any_eq_true]
      exact ⟨r, hr, by simp [hri]⟩
    have hget := totalsGet_sanityTotals entries r.propertyId
    rw [if_pos hhas] at hget
    refine ⟨(r.propertyId, highestStoredEnd entries r.propertyId),
      mem_of_totalsGet hget, ?_⟩
    simpa using hmis

/-! ## NFT range store (`CMPNonFungibleTokensDB`, nftdb.cpp)

Keys are built by `createNFTKey` as `"%010u_%u_%020d-%020d"` over
`(propertyId, storage type, tokenIdStart, tokenIdEnd)`.  For the token ids
that actually occur (non-negative `int64_t`), the zero-padded decimal
encoding makes the LevelDB byte order of the keys of one
`(propertyId, storage)` group coincide with the lexicographic order of
`(tokenIdStart, tokenIdEnd)`.  Every helper of the class seeks to the
`(propertyId, storage)` prefix and stops when the parsed key leaves that
group, so each group is modelled as a list of `((start, end), value)` pairs
in ascending key order, and the whole database as one such list per storage
kind of the property under consideration. -/

/-- One stored range of a `(propertyId, storage)` group: the
`(tokenIdStart, tokenIdEnd)` key and the stored value (the owning address
for `RangeIndex`, free-form data otherwise). -/
abbrev TokenRange := (Int × Int) × String

/-- Lexicographic order of the `(tokenIdStart, tokenIdEnd)` keys inside one
`(propertyId, storage)` group, matching the LevelDB byte order of
`createNFTKey` for non-negative token ids. -/
def rangeKeyLt (a b : Int × Int) : Prop :=
  a.1 < b.1 ∨ (a.1 = b.1 ∧ a.2 < b.2)

instance (a b : Int × Int) : Decidable (rangeKeyLt a b) := by
  unfold rangeKeyLt; infer_instance

/-- `CMPNonFungibleTokensDB::GetRange`: scan the group in key order and
return the first range containing `tokenId`, else the zeroed range. -/
def GetRange (db : List TokenRange) (tokenId : Int) : Int × Int :=
  match db.find? (fun r => decide (r.1.1 ≤ tokenId ∧ tokenId ≤ r.1.2)) with
  | some r => r.1
  | none => (0, 0)

/-- `CMPNonFungibleTokensDB::GetNonFungibleTokenValueInRange`: the value of
the first range containing the whole of `[rangeStart..rangeEnd]`, else the
empty string. -/
def GetNonFungibleTokenValueInRange (db : List TokenRange)
    (rangeStart rangeEnd : Int) : String :=
  match db.find? (fun r => decide (r.1.1 ≤ rangeStart ∧ rangeEnd ≤ r.1.2)) with
  | some r => r.2
  | none => ""

/-- `CMPNonFungibleTokensDB::GetNonFungibleTokenValue`: the value of the
first range containing `tokenId`, else the empty string. -/
def GetNonFungibleTokenValue (db : List TokenRange) (tokenId : Int) : String :=
  match db.find? (fun r => decide (r.1.1 ≤ tokenId ∧ tokenId ≤ r.1.2)) with
  | some r => r.2
  | none => ""

/-- `CMPNonFungibleTokensDB::DeleteRange`: LevelDB `Delete` of the exact key
`(tokenIdStart, tokenIdEnd)`. -/
def DeleteRange (db : List TokenRange) (tokenIdStart tokenIdEnd : Int) :
    List TokenRange :=
  db.filter (fun r => !(r.1 == (tokenIdStart, tokenIdEnd)))

/-- `CMPNonFungibleTokensDB::AddRange`: LevelDB `Put` of
`(tokenIdStart, tokenIdEnd) → info`, inserting at the key's position (or
overwriting an equal key). -/
def AddRange : List TokenRange → Int → Int → String → List TokenRange
  | [], s, e, v => [((s, e), v)]
  | r :: rs, s, e, v =>
    if rangeKeyLt (s, e) r.1 then ((s, e), v) :: r :: rs
    else if r.1 = (s, e) then ((s, e), v) :: rs
    else r :: AddRange rs s e v

/-- `CMPNonFungibleTokensDB::GetHighestRangeEnd`: the maximum over all keys
of the group of both key components, from 0. -/
def GetHighestRangeEnd (db : List TokenRange) : Int :=
  db.foldl (fun m r => max m (max r.1.1 r.1.2)) 0

/-- `CMPNonFungibleTokensDB::MoveNonFungibleTokens` on the `RangeIndex`
group of a property (the function reads and writes only `RangeIndex` keys):
requires the first range covering `[tokenIdStart..tokenIdEnd]` to be owned
by `fromAddr`; deletes the sender's range; re-inserts residuals outside the
moved interval; merges with `toAddr`'s adjacent ranges; inserts the
possibly-extended range for `toAddr`. -/
def MoveNonFungibleTokens (db : List TokenRange)
    (tokenIdStart tokenIdEnd : Int) (fromAddr toAddr : String) :
    Bool × List TokenRange :=
  let startOwner := GetNonFungibleTokenValueInRange db tokenIdStart tokenIdEnd
  if startOwner ≠ fromAddr then (false, db)
  else
    let senderTokenRange := GetRange db tokenIdStart
    let bMovingCompleteRange :=
      senderTokenRange.1 = tokenIdStart ∧ senderTokenRange.2 = tokenIdEnd
    let rangeBelowOwner := GetNonFungibleTokenValue db (tokenIdStart - 1)
    let rangeAfterOwner := GetNonFungibleTokenValue db (tokenIdEnd + 1)
    let bToAdjacentRangeBefore := rangeBelowOwner = toAddr
    let bToAdjacentRangeAfter := rangeAfterOwner = toAddr
    let db1 := DeleteRange db senderTokenRange.1 senderTokenRange.2
    let db2 :=
      if ¬ bMovingCompleteRange ∧ senderTokenRange.1 < tokenIdStart then
        AddRange db1 senderTokenRange.1 (tokenIdStart - 1) fromAddr
      else db1
    let db3 :=
      if ¬ bMovingCompleteRange ∧ tokenIdEnd < senderTokenRange.2 then
        AddRange db2 (tokenIdEnd + 1) senderTokenRange.2 fromAddr
      else db2
    if ¬ bToAdjacentRangeBefore ∧ ¬ bToAdjacentRangeAfter then
      (true, AddRange db3 tokenIdStart tokenIdEnd toAddr)
    else
      let left :=
        if bToAdjacentRangeBefore then
          let oldRange := GetRange db3 (tokenIdStart - 1)
          (oldRange.1, DeleteRange db3 oldRange.1 oldRange.2)
        else (tokenIdStart, db3)
      let right :=
        if bToAdjacentRangeAfter then
          let oldRange := GetRange left.2 (tokenIdEnd + 1)
          (oldRange.2, DeleteRange left.2 oldRange.1 oldRange.2)
        else (tokenIdEnd, left.2)
      (true, AddRange right.2 left.1 right.1 toAddr)

/-- The NFT database of one property: one key group per storage kind. -/
structure NftState where
  rangeIndex : List TokenRange
  issuerData : List TokenRange
  holderData : List TokenRange
  grantData : List TokenRange
deriving DecidableEq

/-- The storage group of `st` selected by `storage`. -/
def NftState.group (st : NftState) : NonFungibleStorage → List TokenRange
  | NonFungibleStorage.IssuerData => st.issuerData
  | NonFungibleStorage.HolderData => st.holderData
  | NonFungibleStorage.GrantData => st.grantData
  | _ => st.rangeIndex

/-- Replace the storage group of `st` selected by `storage`. -/
def NftState.setGroup (st : NftState) (storage : NonFungibleStorage)
    (db : List TokenRange) : NftState :=
  match storage with
  | NonFungibleStorage.IssuerData => { st with issuerData := db }
  | NonFungibleStorage.HolderData => { st with holderData := db }
  | NonFungibleStorage.GrantData => { st with grantData := db }
  | _ => { st with rangeIndex := db }

theorem GetRange_contains_or_zero (db : List TokenRange) (i : Int) :
    GetRange db i = (0, 0) ∨ ((GetRange db i).1 ≤ i ∧ i ≤ (GetRange db i).2) := by
  unfold GetRange
  cases hfind : db.find? (fun r => decide (r.1.1 ≤ i ∧ i ≤ r.1.2)) with
  | none => exact Or.inl rfl
  | some r =>
    right
    have := (List.find?_eq_some.mp hfind).1
    simpa using this

/-- The range-gathering loop of `ChangeNonFungibleTokenData`: starting at
`i = tokenIdStart`, repeatedly look up the range of kind `type` containing
`i`, stop on a missed lookup or past `tokenIdEnd`, and continue at the found
range's end plus one. -/
def gatherRanges (db : List TokenRange) (i tokenIdEnd : Int) :
    List (Int × Int) :=
  if _h : i ≤ tokenIdEnd then
    if heq : GetRange db i = (0, 0) then []
    else GetRange db i :: gatherRanges db ((GetRange db i).2 + 1) tokenIdEnd
  else []
termination_by (tokenIdEnd + 1 - i).toNat
decreasing_by
  rcases GetRange_contains_or_zero db i with hc | hc
  · exact absurd hc heq
  · omega

/-- `CMPNonFungibleTokensDB::ChangeNonFungibleTokenData` acting on the key
group of kind `type`: gather the ranges intersecting
`[tokenIdStart..tokenIdEnd]` (up to the first gap), delete them, re-insert
the outside parts of the first and last gathered range with their previous
data, and write `[tokenIdStart..tokenIdEnd] → data`. -/
def changeDataGroup (db : List TokenRange) (tokenIdStart tokenIdEnd : Int)
    (data : String) : List TokenRange :=
  let ranges := gatherRanges db tokenIdStart tokenIdEnd
  let db1 :=
    match ranges.head?, ranges.getLast? with
    | some first, some last =>
      let beforeData := GetNonFungibleTokenValue db first.1
      let afterData := GetNonFungibleTokenValue db last.1
      let deleted := ranges.foldl (fun d r => DeleteRange d r.1 r.2) db
      let withBefore :=
        if first.1 < tokenIdStart then
          AddRange deleted first.1 (tokenIdStart - 1) beforeData
        else deleted
      if tokenIdEnd < last.2 then
        AddRange withBefore (tokenIdEnd + 1) last.2 afterData
      else withBefore
    | _, _ => db
  AddRange db1 tokenIdStart tokenIdEnd data

/-- `CMPNonFungibleTokensDB::ChangeNonFungibleTokenData` on the whole
per-property state: only the key group of kind `type` is touched. -/
def ChangeNonFungibleTokenData (st : NftState) (tokenIdStart tokenIdEnd : Int)
    (data : String) (storage : NonFungibleStorage) : NftState :=
  st.setGroup storage
    (changeDataGroup (st.group storage) tokenIdStart tokenIdEnd data)

/-- `CMPNonFungibleTokensDB::CreateNonFungibleTokens`: returns the zeroed
range for a negative amount; otherwise grows the token space above the
highest `RangeIndex` end (saturating at `int64` max), writes the grant data
for the new ids, and inserts the new `RangeIndex` range, coalescing with the
last range when it is owned by the same owner. -/
def CreateNonFungibleTokens (st : NftState) (amount : Int)
    (owner info : String) : NftState × (Int × Int) :=
  if amount < 0 then (st, (0, 0))
  else
    let highestId := GetHighestRangeEnd st.rangeIndex
    let newTokenStartId := highestId + 1
    let newTokenEndId :=
      if highestId > INT64_MAX - amount then INT64_MAX else highestId + amount
    let st1 :=
      { st with
        grantData := AddRange st.grantData newTokenStartId newTokenEndId info }
    let newRange := (newTokenStartId, newTokenEndId)
    let highestRangeOwner := GetNonFungibleTokenValue st1.rangeIndex highestId
    let startAndIndex :=
      if highestRangeOwner = owner then
        let oldRange := GetRange st1.rangeIndex highestId
        (oldRange.1, DeleteRange st1.rangeIndex oldRange.1 oldRange.2)
      else (newTokenStartId, st1.rangeIndex)
    ({ st1 with
        rangeIndex :=
          AddRange startAndIndex.2 startAndIndex.1 newTokenEndId owner },
      newRange)

/-- `MoveNonFungibleTokens` on the whole per-property state: the method
reads and writes only `RangeIndex` keys. -/
def moveTokensOnState (st : NftState) (tokenIdStart tokenIdEnd : Int)
    (fromAddr toAddr : String) : Bool × NftState :=
  let result := MoveNonFungibleTokens st.rangeIndex tokenIdStart tokenIdEnd
    fromAddr toAddr
  (result.1, { st with rangeIndex := result.2 })

/-! ### Well-formedness of a range group and basic lookup lemmas -/

/-- No two stored ranges of the group overlap (share a token id). -/
def NoOverlap (db : List TokenRange) : Prop :=
  ∀ x ∈ db, ∀ y ∈ db, x ≠ y → (x.1.2 < y.1.1 ∨ y.1.2 < x.1.1)

/-- Every stored range has a positive start, a start at most its end, and a
non-empty value (an owning address is never the empty string, which is the
sentinel of a missed lookup). -/
def BoundsOk (db : List TokenRange) : Prop :=
  ∀ r ∈ db, 1 ≤ r.1.1 ∧ r.1.1 ≤ r.1.2 ∧ r.2 ≠ ""

/-- No two adjacent ranges of the group have the same value: the claimed
coalescing invariant of the `RangeIndex` group. -/
def NoAdjacentSameOwner (db : List TokenRange) : Prop :=
  ∀ x ∈ db, ∀ y ∈ db, x.1.2 + 1 = y.1.1 → x.2 ≠ y.2

theorem noOverlap_subset {db db' : List TokenRange} (hsub : db' ⊆ db)
    (hno : NoOverlap db) : NoOverlap db' :=
  fun x hx y hy hxy => hno x (hsub hx) y (hsub hy) hxy

theorem boundsOk_subset {db db' : List TokenRange} (hsub : db' ⊆ db)
    (hb : BoundsOk db) : BoundsOk db' :=
  fun r hr => hb r (hsub hr)

/-- Two ranges of a non-overlapping group containing a common token id are
equal. -/
theorem contains_unique {db : List TokenRange} (hno : NoOverlap db)
    {x y : TokenRange} {t : Int} (hx : x ∈ db) (hy : y ∈ db)
    (hx1 : x.1.1 ≤ t) (hx2 : t ≤ x.1.2) (hy1 : y.1.1 ≤ t) (hy2 : t ≤ y.1.2) :
    x = y := by
  by_contra hne
  rcases hno x hx y hy hne with hlt | hlt <;> omega

theorem find?_eq_of_unique {α : Type} {l : List α} {p : α → Bool} {a : α}
    (hmem : a ∈ l) (hpa : p a = true)
    (huniq : ∀ x ∈ l, p x = true → x = a) : l.find? p = some a := by
  induction l with
  | nil => exact absurd hmem (by simp)
  | cons b rest ih =>
    by_cases hpb : p b = true
    · rw [List.find?_cons_of_pos _ hpb, huniq b (by simp) hpb]
    · rw [List.find?_cons_of_neg _ (by simpa using hpb)]
      rcases List.mem_cons.mp hmem with rfl | hmem'
      · exact absurd hpa hpb
      · exact ih hmem' (fun x hx hpx => huniq x (List.mem_cons_of_mem _ hx) hpx)

theorem GetRange_eq {db : List TokenRange} {r : TokenRange} {t : Int}
    (hno : NoOverlap db) (hr : r ∈ db) (h1 : r.1.1 ≤ t) (h2 : t ≤ r.1.2) :
    GetRange db t = r.1 := by
  unfold GetRange
  rw [find?_eq_of_unique hr (by simpa using And.intro h1 h2)
    (fun x hx hpx => by
      have hx' : x.1.1 ≤ t ∧ t ≤ x.1.2 := by simpa using hpx
      exact contains_unique hno hx hr hx'.1 hx'.2 h1 h2)]

theorem GetNonFungibleTokenValue_eq {db : List TokenRange} {r : TokenRange}
    {t : Int} (hno : NoOverlap db) (hr : r ∈ db) (h1 : r.1.1 ≤ t)
    (h2 : t ≤ r.1.2) : GetNonFungibleTokenValue db t = r.2 := by
  unfold GetNonFungibleTokenValue
  rw [find?_eq_of_unique hr (by simpa using And.intro h1 h2)
    (fun x hx hpx => by
      have hx' : x.1.1 ≤ t ∧ t ≤ x.1.2 := by simpa using hpx
      exact contains_unique hno hx hr hx'.1 hx'.2 h1 h2)]

theorem GetNonFungibleTokenValue_none {db : List TokenRange} {t : Int}
    (h : ∀ r ∈ db, ¬ (r.1.1 ≤ t ∧ t ≤ r.1.2)) :
    GetNonFungibleTokenValue db t = "" := by
  unfold GetNonFungibleTokenValue
  rw [List.find?_eq_none.mpr (fun x hx => by simpa using h x hx)]

theorem GetNonFungibleTokenValue_exists {db : List TokenRange} {t : Int}
    (h : GetNonFungibleTokenValue db t ≠ "") :
    ∃ r ∈ db, r.1.1 ≤ t ∧ t ≤ r.1.2 ∧
      r.2 = GetNonFungibleTokenValue db t := by
  unfold GetNonFungibleTokenValue at *
  cases hfind : db.find? (fun r => decide (r.1.1 ≤ t ∧ t ≤ r.1.2)) with
  | none => rw [hfind] at h; exact absurd rfl h
  | some r =>
    have hmem := List.mem_of_find?_eq_some hfind
    have hpr := (List.find?_eq_some.mp hfind).1
    have hr' : r.1.1 ≤ t ∧ t ≤ r.1.2 := by simpa using hpr
    exact ⟨r, hmem, hr'.1, hr'.2, rfl⟩

theorem GetNonFungibleTokenValueInRange_eq {db : List TokenRange}
    {r : TokenRange} {s e : Int} (hno : NoOverlap db) (hr : r ∈ db)
    (hse : s ≤ e) (h1 : r.1.1 ≤ s) (h2 : e ≤ r.1.2) :
    GetNonFungibleTokenValueInRange db s e = r.2 := by
  unfold GetNonFungibleTokenValueInRange
  rw [find?_eq_of_unique hr (by simpa using And.intro h1 h2)
    (fun x hx hpx => by
      have hx' : x.1.1 ≤ s ∧ e ≤ x.1.2 := by simpa using hpx
      exact contains_unique hno hx hr hx'.1 (by omega) h1 (by omega))]

theorem GetNonFungibleTokenValueInRange_mem {db : List TokenRange} {s e : Int}
    (h : GetNonFungibleTokenValueInRange db s e ≠ "") :
    ∃ r ∈ db, r.1.1 ≤ s ∧ e ≤ r.1.2 ∧
      r.2 = GetNonFungibleTokenValueInRange db s e := by
  unfold GetNonFungibleTokenValueInRange at *
  cases hfind : db.find? (fun r => decide (r.1.1 ≤ s ∧ e ≤ r.1.2)) with
  | none => rw [hfind] at h; exact absurd rfl h
  | some r =>
    have hmem := List.mem_of_find?_eq_some hfind
    have hpr := (List.find?_eq_some.mp hfind).1
    have hr' : r.1.1 ≤ s ∧ e ≤ r.1.2 := by simpa using hpr
    exact ⟨r, hmem, hr'.1, hr'.2, rfl⟩

theorem mem_DeleteRange {db : List TokenRange} {s e : Int} {x : TokenRange} :
    x ∈ DeleteRange db s e ↔ x ∈ db ∧ x.1 ≠ (s, e) := by
  unfold DeleteRange
  rw [List.mem_filter]
  simp

/-- Membership after an `AddRange` whose key is not yet present (the only
situation in which the verified operations perform a `Put`). -/
theorem mem_AddRange_fresh {db : List TokenRange} {s e : Int} {v : String}
    {x : TokenRange} (hfresh : ∀ y ∈ db, y.1 ≠ (s, e)) :
    x ∈ AddRange db s e v ↔ x = ((s, e), v) ∨ x ∈ db := by
  induction db with
  | nil => simp [AddRange]
  | cons r rs ih =>
    by_cases hlt : rangeKeyLt (s, e) r.1
    · simp only [AddRange, if_pos hlt, List.mem_cons]
    · by_cases heq : r.1 = (s, e)
      · exact absurd heq (hfresh r (by simp))
      · simp only [AddRange, if_neg hlt, if_neg heq, List.mem_cons,
          ih (fun y hy => hfresh y (List.mem_cons_of_mem _ hy))]
        tauto

/-- C10: failure atomicity of NFT moves.  When no stored `RangeIndex` range
owned by `fromAddr` covers `[tokenIdStart..tokenIdEnd]`, the move returns
false before performing any write, leaving every storage group of the
database unchanged. -/
theorem spec_C10_moveFailureAtomic (st : NftState)
    (tokenIdStart tokenIdEnd : Int) (fromAddr toAddr : String)
    (hfa : fromAddr ≠ "")
    (hnone : ¬ ∃ r ∈ st.rangeIndex,
      r.1.1 ≤ tokenIdStart ∧ tokenIdEnd ≤ r.1.2 ∧ r.2 = fromAddr) :
    moveTokensOnState st tokenIdStart tokenIdEnd fromAddr toAddr =
      (false, st) := by
  have hguard : GetNonFungibleTokenValueInRange st.rangeIndex tokenIdStart
      tokenIdEnd ≠ fromAddr := by
    by_cases hv : GetNonFungibleTokenValueInRange st.rangeIndex tokenIdStart
        tokenIdEnd = ""
    · rw [hv]; exact fun hc => hfa hc.symm
    · intro hc
      obtain ⟨r, hr, h1, h2, h3⟩ := GetNonFungibleTokenValueInRange_mem hv
      exact hnone ⟨r, hr, h1, h2, h3.trans hc⟩
  simp only [moveTokensOnState, MoveNonFungibleTokens, if_pos hguard]

/-- Witness for C10 at a concrete input: moving tokens [3..5] from an address
that owns nothing leaves the database bit-identical and returns false. -/
theorem spec_C10_moveFailureAtomic_witness :
    moveTokensOnState ⟨[((1, 10), "A")], [], [], []⟩ 3 5 "B" "C" =
      (false, ⟨[((1, 10), "A")], [], [], []⟩) := by
  refine spec_C10_moveFailureAtomic ⟨[((1, 10), "A")], [], [], []⟩ 3 5 "B" "C"
    (by decide) ?_
  rintro ⟨r, hr, h1, h2, h3⟩
  fin_cases hr
  exact absurd h3 (by decide)

/-! ### Decomposition of a successful move

`MoveNonFungibleTokens` past its ownership guard always returns true; its
database effect is split here into the residual stage (delete the sender's
range, re-insert the parts outside the moved interval) and the absorb stage
(swallow the recipient's adjacent ranges and insert the possibly-extended
range), to be characterized piecewise. -/

/-- The sender-adjustment stage of a successful move: `g, h` are the bounds
of the sender's covering range found by `GetRange`. -/
def moveResiduals (db : List TokenRange) (s e g h : Int) (fA : String) :
    List TokenRange :=
  let db1 := DeleteRange db g h
  let db2 :=
    if ¬ (g = s ∧ h = e) ∧ g < s then AddRange db1 g (s - 1) fA else db1
  if ¬ (g = s ∧ h = e) ∧ e < h then AddRange db2 (e + 1) h fA else db2

/-- Left half of the recipient-adjustment stage: when the owner of `s-1`
matched the recipient, delete the range containing `s-1` and extend the new
start to its start. -/
def absorbLeft (db3 : List TokenRange) (s : Int) (bB : Bool) :
    Int × List TokenRange :=
  if bB then
    ((GetRange db3 (s - 1)).1,
      DeleteRange db3 (GetRange db3 (s - 1)).1 (GetRange db3 (s - 1)).2)
  else (s, db3)

/-- Right half of the recipient-adjustment stage, on the output of the left
half. -/
def absorbRight (db4 : List TokenRange) (e : Int) (bA : Bool) :
    Int × List TokenRange :=
  if bA then
    ((GetRange db4 (e + 1)).2,
      DeleteRange db4 (GetRange db4 (e + 1)).1 (GetRange db4 (e + 1)).2)
  else (e, db4)

/-- The recipient-adjustment stage of a successful move, on the output of
the residual stage: `bB`/`bA` record whether the owner of `s-1`/`e+1` in the
original database equals the recipient. -/
def moveAbsorb (db3 : List TokenRange) (s e : Int) (bB bA : Bool)
    (tA : String) : List TokenRange :=
  let left := absorbLeft db3 s bB
  let right := absorbRight left.2 e bA
  AddRange right.2 left.1 right.1 tA

/-- Past its guard, `MoveNonFungibleTokens` is the composition of the two
stages and returns true. -/
theorem move_eq_of_owner (db : List TokenRange) (s e : Int)
    (fA tA : String)
    (howner : GetNonFungibleTokenValueInRange db s e = fA) :
    MoveNonFungibleTokens db s e fA tA =
      (true,
        moveAbsorb
          (moveResiduals db s e (GetRange db s).1 (GetRange db s).2 fA) s e
          (decide (GetNonFungibleTokenValue db (s - 1) = tA))
          (decide (GetNonFungibleTokenValue db (e + 1) = tA)) tA) := by
  unfold MoveNonFungibleTokens moveAbsorb absorbLeft absorbRight moveResiduals
  rw [if_neg (by simp [howner])]
  by_cases hbB : GetNonFungibleTokenValue db (s - 1) = tA <;>
    by_cases hbA : GetNonFungibleTokenValue db (e + 1) = tA <;>
    simp [hbB, hbA]

section MoveCharacterization

variable {db : List TokenRange} {s e g h : Int} {fA tA : String}

/-- Setting of a successful move: a well-formed group in which
`((g, h), fA)` is the sender's covering range. -/
structure MoveSetting (db : List TokenRange) (s e g h : Int) (fA : String) :
    Prop where
  hno : NoOverlap db
  hbounds : BoundsOk db
  hs : 1 ≤ s
  hse : s ≤ e
  hR : ((g, h), fA) ∈ db
  hg : g ≤ s
  hh : e ≤ h

theorem MoveSetting.hg1 (M : MoveSetting db s e g h fA) : 1 ≤ g :=
  (M.hbounds _ M.hR).1

theorem MoveSetting.hfA (M : MoveSetting db s e g h fA) : fA ≠ "" :=
  (M.hbounds _ M.hR).2.2

/-- Any member of the group whose key is `(g, h)` is the sender's range. -/
theorem MoveSetting.key_eq_R (M : MoveSetting db s e g h fA) {y : TokenRange}
    (hy : y ∈ db) (hk : y.1 = (g, h)) : y = ((g, h), fA) := by
  have hgh : g ≤ h := by
    have := M.hg
    have := M.hh
    have := M.hse
    omega
  exact contains_unique M.hno hy M.hR (t := g) (by rw [hk]) (by rw [hk]; exact hgh)
    le_rfl hgh

/-- Any member of the group containing a token of `[g..h]` is the sender's
range. -/
theorem MoveSetting.mem_R_interval (M : MoveSetting db s e g h fA)
    {y : TokenRange} {t : Int} (hy : y ∈ db) (h1 : y.1.1 ≤ t) (h2 : t ≤ y.1.2)
    (h3 : g ≤ t) (h4 : t ≤ h) : y = ((g, h), fA) :=
  contains_unique M.hno hy M.hR h1 h2 h3 h4

theorem MoveSetting.mem_DeleteR (M : MoveSetting db s e g h fA)
    {y : TokenRange} :
    y ∈ DeleteRange db g h ↔ (y ∈ db ∧ y ≠ ((g, h), fA)) := by
  rw [mem_DeleteRange]
  constructor
  · rintro ⟨hy, hk⟩
    exact ⟨hy, fun hc => hk (by rw [hc])⟩
  · rintro ⟨hy, hne⟩
    exact ⟨hy, fun hk => hne (M.key_eq_R hy hk)⟩

theorem mem_moveResiduals (M : MoveSetting db s e g h fA) :
    ∀ x, x ∈ moveResiduals db s e g h fA ↔
      ((g < s ∧ x = ((g, s - 1), fA)) ∨ (e < h ∧ x = ((e + 1, h), fA)) ∨
        (x ∈ db ∧ x ≠ ((g, h), fA))) := by
  intro x
  have hcond1 : (¬ (g = s ∧ h = e) ∧ g < s) ↔ g < s := by omega
  have hcond2 : (¬ (g = s ∧ h = e) ∧ e < h) ↔ e < h := by omega
  have hs := M.hs
  have hse := M.hse
  have hg := M.hg
  have hh := M.hh
  have hfresh1 : g < s → ∀ y ∈ DeleteRange db g h, y.1 ≠ (g, s - 1) := by
    intro hgs y hy hk
    obtain ⟨hy', hne⟩ := M.mem_DeleteR.mp hy
    exact hne (M.mem_R_interval hy' (t := g) (by rw [hk]) (by rw [hk]; omega)
      le_rfl (by omega))
  have hfresh2 : e < h → ∀ y ∈ db, y ≠ ((g, h), fA) → y.1 ≠ (e + 1, h) := by
    intro heh y hy hne hk
    exact hne (M.mem_R_interval hy (t := e + 1) (by rw [hk]) (by rw [hk]; omega)
      (by omega) (by omega))
  simp only [moveResiduals, hcond1, hcond2]
  by_cases hgs : g < s <;> by_cases heh : e < h
  · rw [if_pos hgs, if_pos heh,
      mem_AddRange_fresh (fun y hy => by
        rcases (mem_AddRange_fresh (hfresh1 hgs) (x := y)).mp hy with rfl | hy'
        · intro hk
          injection hk with hk1 hk2
          omega
        · exact hfresh2 heh y (M.mem_DeleteR.mp hy').1 (M.mem_DeleteR.mp hy').2),
      mem_AddRange_fresh (hfresh1 hgs), M.mem_DeleteR]
    constructor
    · rintro (rfl | rfl | hy)
      · exact Or.inr (Or.inl ⟨heh, rfl⟩)
      · exact Or.inl ⟨hgs, rfl⟩
      · exact Or.inr (Or.inr hy)
    · rintro (⟨-, rfl⟩ | ⟨-, rfl⟩ | hy)
      · exact Or.inr (Or.inl rfl)
      · exact Or.inl rfl
      · exact Or.inr (Or.inr hy)
  · rw [if_pos hgs, if_neg heh, mem_AddRange_fresh (hfresh1 hgs),
      M.mem_DeleteR]
    constructor
    · rintro (rfl | hy)
      · exact Or.inl ⟨hgs, rfl⟩
      · exact Or.inr (Or.inr hy)
    · rintro (⟨-, rfl⟩ | ⟨heh', -⟩ | hy)
      · exact Or.inl rfl
      · omega
      · exact Or.inr hy
  · rw [if_neg hgs, if_pos heh,
      mem_AddRange_fresh (fun y hy =>
        hfresh2 heh y (M.mem_DeleteR.mp hy).1 (M.mem_DeleteR.mp hy).2),
      M.mem_DeleteR]
    constructor
    · rintro (rfl | hy)
      · exact Or.inr (Or.inl ⟨heh, rfl⟩)
      · exact Or.inr (Or.inr hy)
    · rintro (⟨hgs', -⟩ | ⟨-, rfl⟩ | hy)
      · omega
      · exact Or.inl rfl
      · exact Or.inr hy
  · rw [if_neg hgs, if_neg heh, M.mem_DeleteR]
    constructor
    · intro hy
      exact Or.inr (Or.inr hy)
    · rintro (⟨hgs', -⟩ | ⟨heh', -⟩ | hy)
      · omega
      · omega
      · exact hy

/-- Bounds are preserved by the residual stage. -/
theorem boundsOk_moveResiduals (M : MoveSetting db s e g h fA) :
    BoundsOk (moveResiduals db s e g h fA) := by
  intro r hr
  have hg1 := M.hg1
  have hfa := M.hfA
  have hs := M.hs
  have hse := M.hse
  have hg := M.hg
  have hh := M.hh
  rcases (mem_moveResiduals M r).mp hr with ⟨hgs, rfl⟩ | ⟨heh, rfl⟩ | ⟨hy, -⟩
  · refine ⟨?_, ?_, hfa⟩ <;> simp <;> omega
  · refine ⟨?_, ?_, hfa⟩ <;> simp <;> omega
  · exact M.hbounds r hy

/-- Overlap-freedom is preserved by the residual stage. -/
theorem noOverlap_moveResiduals (M : MoveSetting db s e g h fA) :
    NoOverlap (moveResiduals db s e g h fA) := by
  intro x hx y hy hne
  have hs := M.hs
  have hse := M.hse
  have hg := M.hg
  have hh := M.hh
  have hdisj : ∀ z ∈ db, z ≠ ((g, h), fA) → ∀ t1 t2 : Int, g ≤ t1 → t2 ≤ h →
      t1 ≤ t2 → z.1.2 < t1 ∨ t2 < z.1.1 := by
    intro z hz hzne t1 t2 ht1 ht2 ht12
    by_contra hc
    push_neg at hc
    have hzb := M.hbounds z hz
    exact hzne (M.mem_R_interval hz (t := max z.1.1 t1)
      (le_max_left _ _) (by omega) (by omega) (by omega))
  rcases (mem_moveResiduals M x).mp hx with ⟨hgs, rfl⟩ | ⟨heh, rfl⟩ | ⟨hxm, hxne⟩ <;>
    rcases (mem_moveResiduals M y).mp hy with ⟨hgs', rfl⟩ | ⟨heh', rfl⟩ | ⟨hym, hyne⟩
  · exact absurd rfl hne
  · left; simp; omega
  · rcases hdisj y hym hyne g (s - 1) le_rfl (by omega) (by omega) with hd | hd
    · right; simpa using hd
    · left; simpa using hd
  · right; simp; omega
  · exact absurd rfl hne
  · rcases hdisj y hym hyne (e + 1) h (by omega) le_rfl (by omega) with hd | hd
    · right; simpa using hd
    · left; simpa using hd
  · rcases hdisj x hxm hxne g (s - 1) le_rfl (by omega) (by omega) with hd | hd
    · left; simpa using hd
    · right; simpa using hd
  · rcases hdisj x hxm hxne (e + 1) h (by omega) le_rfl (by omega) with hd | hd
    · left; simpa using hd
    · right; simpa using hd
  · exact M.hno x hxm y hym hne

/-- Claim-side new start of the moved range: extended left to the start of
the range containing `s - 1` when that range's owner equals the recipient
(`L_owner == to` in the specification). -/
def moveNewStart (db : List TokenRange) (s : Int) (tA : String) : Int :=
  if GetNonFungibleTokenValue db (s - 1) = tA then (GetRange db (s - 1)).1
  else s

/-- Claim-side new end of the moved range: extended right to the end of the
range containing `e + 1` when that range's owner equals the recipient. -/
def moveNewEnd (db : List TokenRange) (e : Int) (tA : String) : Int :=
  if GetNonFungibleTokenValue db (e + 1) = tA then (GetRange db (e + 1)).2
  else e

/-- Claim-side description of the database after a successful
`move(property, [s..e], fA, tA)` whose covering range was `((g, h), fA)`:
the possibly-extended range now owned by the recipient, the sender's
residual segments outside `[s..e]` (unless absorbed), and every untouched
previous range — the covering range and the absorbed neighbours being
removed. -/
def movePost (db : List TokenRange) (s e : Int) (fA tA : String)
    (g h : Int) (x : TokenRange) : Prop :=
  x = ((moveNewStart db s tA, moveNewEnd db e tA), tA) ∨
  (¬ GetNonFungibleTokenValue db (s - 1) = tA ∧ g < s ∧
    x = ((g, s - 1), fA)) ∨
  (¬ GetNonFungibleTokenValue db (e + 1) = tA ∧ e < h ∧
    x = ((e + 1, h), fA)) ∨
  (x ∈ db ∧ x ≠ ((g, h), fA) ∧
    ¬ (GetNonFungibleTokenValue db (s - 1) = tA ∧ g = s ∧
        x.1.1 ≤ s - 1 ∧ s - 1 ≤ x.1.2) ∧
    ¬ (GetNonFungibleTokenValue db (e + 1) = tA ∧ h = e ∧
        x.1.1 ≤ e + 1 ∧ e + 1 ≤ x.1.2))

/-- State of the group after the residual and left-absorb stages. -/
def phiLeft (db : List TokenRange) (s e g h : Int) (fA tA : String)
    (y : TokenRange) : Prop :=
  (¬ GetNonFungibleTokenValue db (s - 1) = tA ∧ g < s ∧
    y = ((g, s - 1), fA)) ∨
  (e < h ∧ y = ((e + 1, h), fA)) ∨
  (y ∈ db ∧ y ≠ ((g, h), fA) ∧
    ¬ (GetNonFungibleTokenValue db (s - 1) = tA ∧ g = s ∧
        y.1.1 ≤ s - 1 ∧ s - 1 ≤ y.1.2))

theorem absorbLeft_spec (M : MoveSetting db s e g h fA) (hta : tA ≠ "") :
    (absorbLeft (moveResiduals db s e g h fA) s
        (decide (GetNonFungibleTokenValue db (s - 1) = tA))).1 =
      moveNewStart db s tA ∧
    ∀ y, y ∈ (absorbLeft (moveResiduals db s e g h fA) s
        (decide (GetNonFungibleTokenValue db (s - 1) = tA))).2 ↔
      phiLeft db s e g h fA tA y := by
  have hs := M.hs
  have hse := M.hse
  have hg := M.hg
  have hh := M.hh
  have hno3 := noOverlap_moveResiduals M
  have hmem3 := mem_moveResiduals M
  by_cases hbB : GetNonFungibleTokenValue db (s - 1) = tA
  · rw [show (decide (GetNonFungibleTokenValue db (s - 1) = tA)) = true from
      decide_eq_true hbB]
    by_cases hgs : g < s
    · -- the range containing s-1 is the sender's own residual
      have hfa_ta : fA = tA := by
        have hv : GetNonFungibleTokenValue db (s - 1) = fA :=
          GetNonFungibleTokenValue_eq M.hno M.hR (by simp; omega)
            (by simp; omega)
        rw [hv] at hbB
        exact hbB
      have hresL : ((g, s - 1), fA) ∈ moveResiduals db s e g h fA :=
        (hmem3 _).mpr (Or.inl ⟨hgs, rfl⟩)
      have hGR3 : GetRange (moveResiduals db s e g h fA) (s - 1) =
          (g, s - 1) :=
        GetRange_eq hno3 hresL (by simp; omega) (by simp)
      have hGRdb : GetRange db (s - 1) = (g, h) :=
        GetRange_eq M.hno M.hR (by simp; omega) (by simp; omega)
      constructor
      · simp only [absorbLeft, if_true, hGR3, moveNewStart, if_pos hbB, hGRdb]
      · intro y
        simp only [absorbLeft, if_true, hGR3]
        rw [mem_DeleteRange]
        constructor
        · rintro ⟨hy3, hkey⟩
          rcases (hmem3 y).mp hy3 with ⟨-, rfl⟩ | ⟨heh, rfl⟩ | ⟨hym, hyne⟩
          · exact absurd rfl hkey
          · exact Or.inr (Or.inl ⟨heh, rfl⟩)
          · refine Or.inr (Or.inr ⟨hym, hyne, ?_⟩)
            rintro ⟨-, hgeq, -⟩
            omega
        · rintro (⟨hnb, -⟩ | ⟨heh, rfl⟩ | ⟨hym, hyne, -⟩)
          · exact absurd hbB hnb
          · refine ⟨(hmem3 _).mpr (Or.inr (Or.inl ⟨heh, rfl⟩)), ?_⟩
            simp
            omega
          · refine ⟨(hmem3 y).mpr (Or.inr (Or.inr ⟨hym, hyne⟩)), ?_⟩
            intro hkey
            exact hyne (M.mem_R_interval hym (t := g) (by rw [hkey])
              (by rw [hkey]; omega) le_rfl (by omega))
    · -- g = s: a distinct range of the recipient ends at s-1
      have hgeq : g = s := by omega
      have hvne : GetNonFungibleTokenValue db (s - 1) ≠ "" := by
        rw [hbB]; exact hta
      obtain ⟨L, hL, hL1, hL2, hLval⟩ := GetNonFungibleTokenValue_exists hvne
      have hLta : L.2 = tA := by rw [hLval, hbB]
      have hLneR : L ≠ ((g, h), fA) := by
        rintro rfl
        simp at hL1
        omega
      have hLend : L.1.2 = s - 1 := by
        by_contra hc
        have hL2s : s ≤ L.1.2 := by omega
        exact hLneR (M.mem_R_interval hL (t := s) (by omega) hL2s
          (by omega) (by omega))
      have hLdb3 : L ∈ moveResiduals db s e g h fA :=
        (hmem3 _).mpr (Or.inr (Or.inr ⟨hL, hLneR⟩))
      have hGR3 : GetRange (moveResiduals db s e g h fA) (s - 1) = L.1 :=
        GetRange_eq hno3 hLdb3 hL1 (by omega)
      have hGRdb : GetRange db (s - 1) = L.1 :=
        GetRange_eq M.hno hL hL1 (by omega)
      constructor
      · simp only [absorbLeft, if_true, hGR3, moveNewStart, if_pos hbB, hGRdb]
      · intro y
        simp only [absorbLeft, if_true, hGR3]
        rw [mem_DeleteRange]
        constructor
        · rintro ⟨hy3, hkey⟩
          rcases (hmem3 y).mp hy3 with ⟨hgs', -⟩ | ⟨heh, rfl⟩ | ⟨hym, hyne⟩
          · omega
          · exact Or.inr (Or.inl ⟨heh, rfl⟩)
          · refine Or.inr (Or.inr ⟨hym, hyne, ?_⟩)
            rintro ⟨-, -, hy1, hy2⟩
            exact hkey (congrArg Prod.fst
              (contains_unique M.hno hym hL hy1 hy2 hL1 (by omega)))
        · rintro (⟨hnb, -⟩ | ⟨heh, rfl⟩ | ⟨hym, hyne, hnox⟩)
          · exact absurd hbB hnb
          · refine ⟨(hmem3 _).mpr (Or.inr (Or.inl ⟨heh, rfl⟩)), ?_⟩
            intro hkey
            simp only [Prod.mk.injEq] at hkey
            omega
          · refine ⟨(hmem3 y).mpr (Or.inr (Or.inr ⟨hym, hyne⟩)), ?_⟩
            intro hkey
            exact hnox ⟨hbB, hgeq, by rw [hkey]; omega, by rw [hkey]; omega⟩
  · rw [show (decide (GetNonFungibleTokenValue db (s - 1) = tA)) = false from
      decide_eq_false hbB]
    constructor
    · simp only [absorbLeft, Bool.false_eq_true, if_false, moveNewStart,
        if_neg hbB]
    · intro y
      simp only [absorbLeft, Bool.false_eq_true, if_false]
      rw [hmem3 y]
      constructor
      · rintro (⟨hgs, rfl⟩ | ⟨heh, rfl⟩ | ⟨hym, hyne⟩)
        · exact Or.inl ⟨hbB, hgs, rfl⟩
        · exact Or.inr (Or.inl ⟨heh, rfl⟩)
        · exact Or.inr (Or.inr ⟨hym, hyne, fun hc => hbB hc.1⟩)
      · rintro (⟨-, hgs, rfl⟩ | ⟨heh, rfl⟩ | ⟨hym, hyne, -⟩)
        · exact Or.inl ⟨hgs, rfl⟩
        · exact Or.inr (Or.inl ⟨heh, rfl⟩)
        · exact Or.inr (Or.inr ⟨hym, hyne⟩)

/-- State of the group after the residual stage and both absorb stages,
before the final insertion. -/
def phiRight (db : List TokenRange) (s e g h : Int) (fA tA : String)
    (y : TokenRange) : Prop :=
  (¬ GetNonFungibleTokenValue db (s - 1) = tA ∧ g < s ∧
    y = ((g, s - 1), fA)) ∨
  (¬ GetNonFungibleTokenValue db (e + 1) = tA ∧ e < h ∧
    y = ((e + 1, h), fA)) ∨
  (y ∈ db ∧ y ≠ ((g, h), fA) ∧
    ¬ (GetNonFungibleTokenValue db (s - 1) = tA ∧ g = s ∧
        y.1.1 ≤ s - 1 ∧ s - 1 ≤ y.1.2) ∧
    ¬ (GetNonFungibleTokenValue db (e + 1) = tA ∧ h = e ∧
        y.1.1 ≤ e + 1 ∧ e + 1 ≤ y.1.2))

theorem absorbLeft_subset {db3 : List TokenRange} {s : Int} {bB : Bool}
    {y : TokenRange} (hy : y ∈ (absorbLeft db3 s bB).2) : y ∈ db3 := by
  unfold absorbLeft at hy
  cases bB with
  | false => simpa using hy
  | true =>
    simp only [if_true] at hy
    exact (mem_DeleteRange.mp hy).1

theorem absorbRight_subset {db4 : List TokenRange} {e : Int} {bA : Bool}
    {y : TokenRange} (hy : y ∈ (absorbRight db4 e bA).2) : y ∈ db4 := by
  unfold absorbRight at hy
  cases bA with
  | false => simpa using hy
  | true =>
    simp only [if_true] at hy
    exact (mem_DeleteRange.mp hy).1

theorem absorbRight_spec (M : MoveSetting db s e g h fA) (hta : tA ≠ "") :
    (absorbRight (absorbLeft (moveResiduals db s e g h fA) s
        (decide (GetNonFungibleTokenValue db (s - 1) = tA))).2 e
        (decide (GetNonFungibleTokenValue db (e + 1) = tA))).1 =
      moveNewEnd db e tA ∧
    ∀ y, y ∈ (absorbRight (absorbLeft (moveResiduals db s e g h fA) s
        (decide (GetNonFungibleTokenValue db (s - 1) = tA))).2 e
        (decide (GetNonFungibleTokenValue db (e + 1) = tA))).2 ↔
      phiRight db s e g h fA tA y := by
  have hs := M.hs
  have hse := M.hse
  have hg := M.hg
  have hh := M.hh
  obtain ⟨-, hLmem⟩ := absorbLeft_spec M hta
  have hsub4 : ∀ y, y ∈ (absorbLeft (moveResiduals db s e g h fA) s
      (decide (GetNonFungibleTokenValue db (s - 1) = tA))).2 →
      y ∈ moveResiduals db s e g h fA := fun y hy => absorbLeft_subset hy
  have hno4 : NoOverlap (absorbLeft (moveResiduals db s e g h fA) s
      (decide (GetNonFungibleTokenValue db (s - 1) = tA))).2 :=
    noOverlap_subset (fun y hy => hsub4 y hy) (noOverlap_moveResiduals M)
  by_cases hbA : GetNonFungibleTokenValue db (e + 1) = tA
  · rw [show (decide (GetNonFungibleTokenValue db (e + 1) = tA)) = true from
      decide_eq_true hbA]
    by_cases heh : e < h
    · -- the range containing e+1 is the sender's own residual
      have hres : ((e + 1, h), fA) ∈ (absorbLeft (moveResiduals db s e g h fA)
          s (decide (GetNonFungibleTokenValue db (s - 1) = tA))).2 :=
        (hLmem _).mpr (Or.inr (Or.inl ⟨heh, rfl⟩))
      have hGR4 : GetRange (absorbLeft (moveResiduals db s e g h fA) s
          (decide (GetNonFungibleTokenValue db (s - 1) = tA))).2 (e + 1) =
          (e + 1, h) :=
        GetRange_eq hno4 hres (by simp) (by simp; omega)
      have hGRdb : GetRange db (e + 1) = (g, h) :=
        GetRange_eq M.hno M.hR (by simp; omega) (by simp; omega)
      constructor
      · simp only [absorbRight, if_true, hGR4, moveNewEnd, if_pos hbA, hGRdb]
      · intro y
        simp only [absorbRight, if_true, hGR4]
        rw [mem_DeleteRange]
        constructor
        · rintro ⟨hy4, hkey⟩
          rcases (hLmem y).mp hy4 with ⟨hnb, hgs, rfl⟩ | ⟨-, rfl⟩ |
            ⟨hym, hyne, hnox⟩
          · exact Or.inl ⟨hnb, hgs, rfl⟩
          · exact absurd rfl hkey
          · refine Or.inr (Or.inr ⟨hym, hyne, hnox, ?_⟩)
            rintro ⟨-, hhe, -⟩
            omega
        · rintro (⟨hnb, hgs, rfl⟩ | ⟨hnA, -⟩ | ⟨hym, hyne, hnox, -⟩)
          · refine ⟨(hLmem _).mpr (Or.inl ⟨hnb, hgs, rfl⟩), ?_⟩
            intro hk
            simp only [Prod.mk.injEq] at hk
            omega
          · exact absurd hbA hnA
          · refine ⟨(hLmem y).mpr (Or.inr (Or.inr ⟨hym, hyne, hnox⟩)), ?_⟩
            intro hk
            refine hyne (M.mem_R_interval hym (t := h) ?_ ?_ (by omega) le_rfl)
            · rw [hk]; simp; omega
            · rw [hk]
    · -- h = e: a distinct range of the recipient starts at e+1
      have hhe : h = e := by omega
      have hvne : GetNonFungibleTokenValue db (e + 1) ≠ "" := by
        rw [hbA]; exact hta
      obtain ⟨B, hB, hB1, hB2, hBval⟩ := GetNonFungibleTokenValue_exists hvne
      have hBta : B.2 = tA := by rw [hBval, hbA]
      have hBneR : B ≠ ((g, h), fA) := by
        rintro rfl
        simp at hB2
        omega
      have hBstart : B.1.1 = e + 1 := by
        by_contra hc
        have hB1e : B.1.1 ≤ e := by omega
        exact hBneR (M.mem_R_interval hB (t := e) hB1e (by omega)
          (by omega) (by omega))
      have hBdb4 : B ∈ (absorbLeft (moveResiduals db s e g h fA) s
          (decide (GetNonFungibleTokenValue db (s - 1) = tA))).2 := by
        refine (hLmem _).mpr (Or.inr (Or.inr ⟨hB, hBneR, ?_⟩))
        rintro ⟨-, -, hc1, -⟩
        omega
      have hGR4 : GetRange (absorbLeft (moveResiduals db s e g h fA) s
          (decide (GetNonFungibleTokenValue db (s - 1) = tA))).2 (e + 1) =
          B.1 :=
        GetRange_eq hno4 hBdb4 hB1 hB2
      have hGRdb : GetRange db (e + 1) = B.1 :=
        GetRange_eq M.hno hB hB1 hB2
      constructor
      · simp only [absorbRight, if_true, hGR4, moveNewEnd, if_pos hbA, hGRdb]
      · intro y
        simp only [absorbRight, if_true, hGR4]
        rw [mem_DeleteRange]
        constructor
        · rintro ⟨hy4, hkey⟩
          rcases (hLmem y).mp hy4 with ⟨hnb, hgs, rfl⟩ | ⟨heh', -⟩ |
            ⟨hym, hyne, hnox⟩
          · exact Or.inl ⟨hnb, hgs, rfl⟩
          · omega
          · refine Or.inr (Or.inr ⟨hym, hyne, hnox, ?_⟩)
            rintro ⟨-, -, hc1, hc2⟩
            have hyB : y = B := contains_unique M.hno hym hB hc1 hc2 hB1 hB2
            exact hkey (by rw [hyB])
        · rintro (⟨hnb, hgs, rfl⟩ | ⟨hnA, -⟩ | ⟨hym, hyne, hnox, hnox2⟩)
          · refine ⟨(hLmem _).mpr (Or.inl ⟨hnb, hgs, rfl⟩), ?_⟩
            intro hk
            simp only [Prod.mk.injEq] at hk
            omega
          · exact absurd hbA hnA
          · refine ⟨(hLmem y).mpr (Or.inr (Or.inr ⟨hym, hyne, hnox⟩)), ?_⟩
            intro hk
            refine hnox2 ⟨hbA, hhe, ?_, ?_⟩
            · rw [hk]; simp; omega
            · rw [hk]; simp; omega
  · rw [show (decide (GetNonFungibleTokenValue db (e + 1) = tA)) = false from
      decide_eq_false hbA]
    constructor
    · simp only [absorbRight, Bool.false_eq_true, if_false, moveNewEnd,
        if_neg hbA]
    · intro y
      simp only [absorbRight, Bool.false_eq_true, if_false]
      rw [hLmem y]
      constructor
      · rintro (⟨hnb, hgs, rfl⟩ | ⟨heh, rfl⟩ | ⟨hym, hyne, hnox⟩)
        · exact Or.inl ⟨hnb, hgs, rfl⟩
        · exact Or.inr (Or.inl ⟨hbA, heh, rfl⟩)
        · exact Or.inr (Or.inr ⟨hym, hyne, hnox, fun hc => hbA hc.1⟩)
      · rintro (⟨hnb, hgs, rfl⟩ | ⟨-, heh, rfl⟩ | ⟨hym, hyne, hnox, -⟩)
        · exact Or.inl ⟨hnb, hgs, rfl⟩
        · exact Or.inr (Or.inl ⟨heh, rfl⟩)
        · exact Or.inr (Or.inr ⟨hym, hyne, hnox⟩)

/-- When the owner of `s-1` is the recipient, the new start is the start of
the (unique) range containing `s-1`. -/
theorem moveNewStart_spec (hno : NoOverlap db) (hta : tA ≠ "")
    (hbB : GetNonFungibleTokenValue db (s - 1) = tA) :
    ∃ C ∈ db, C.1.1 = moveNewStart db s tA ∧ C.1.1 ≤ s - 1 ∧
      s - 1 ≤ C.1.2 ∧ C.2 = tA := by
  have hvne : GetNonFungibleTokenValue db (s - 1) ≠ "" := by
    rw [hbB]; exact hta
  obtain ⟨C, hC, h1, h2, hval⟩ := GetNonFungibleTokenValue_exists hvne
  have hGR : GetRange db (s - 1) = C.1 := GetRange_eq hno hC h1 h2
  exact ⟨C, hC, by simp only [moveNewStart, if_pos hbB, hGR], h1, h2,
    by rw [hval, hbB]⟩

/-- When the owner of `e+1` is the recipient, the new end is the end of the
(unique) range containing `e+1`. -/
theorem moveNewEnd_spec (hno : NoOverlap db) (hta : tA ≠ "")
    (hbA : GetNonFungibleTokenValue db (e + 1) = tA) :
    ∃ C ∈ db, C.1.2 = moveNewEnd db e tA ∧ C.1.1 ≤ e + 1 ∧
      e + 1 ≤ C.1.2 ∧ C.2 = tA := by
  have hvne : GetNonFungibleTokenValue db (e + 1) ≠ "" := by
    rw [hbA]; exact hta
  obtain ⟨C, hC, h1, h2, hval⟩ := GetNonFungibleTokenValue_exists hvne
  have hGR : GetRange db (e + 1) = C.1 := GetRange_eq hno hC h1 h2
  exact ⟨C, hC, by simp only [moveNewEnd, if_pos hbA, hGR], h1, h2,
    by rw [hval, hbA]⟩

theorem moveNewStart_le (hno : NoOverlap db) (hta : tA ≠ "") :
    moveNewStart db s tA ≤ s := by
  by_cases hbB : GetNonFungibleTokenValue db (s - 1) = tA
  · obtain ⟨C, -, hCeq, hC1, -, -⟩ := moveNewStart_spec hno hta hbB
    omega
  · simp [moveNewStart, if_neg hbB]

theorem moveNewEnd_ge (hno : NoOverlap db) (hta : tA ≠ "") :
    e ≤ moveNewEnd db e tA := by
  by_cases hbA : GetNonFungibleTokenValue db (e + 1) = tA
  · obtain ⟨C, -, hCeq, -, hC2, -⟩ := moveNewEnd_spec hno hta hbA
    omega
  · simp [moveNewEnd, if_neg hbA]

set_option maxHeartbeats 1000000 in
/-- Membership characterization of a successful move: the result of the
composed stages is exactly the claim-side description `movePost`. -/
theorem move_success_mem (M : MoveSetting db s e g h fA) (hta : tA ≠ "") :
    ∀ x, x ∈ moveAbsorb (moveResiduals db s e g h fA) s e
        (decide (GetNonFungibleTokenValue db (s - 1) = tA))
        (decide (GetNonFungibleTokenValue db (e + 1) = tA)) tA ↔
      movePost db s e fA tA g h x := by
  intro x
  have hs := M.hs
  have hse := M.hse
  have hg := M.hg
  have hh := M.hh
  obtain ⟨hl1, -⟩ := absorbLeft_spec M hta
  obtain ⟨hr1, hr2⟩ := absorbRight_spec M hta
  have hS_le : moveNewStart db s tA ≤ s := moveNewStart_le M.hno hta
  have hE_ge : e ≤ moveNewEnd db e tA := moveNewEnd_ge M.hno hta
  have hfresh : ∀ y ∈ (absorbRight (absorbLeft (moveResiduals db s e g h fA)
      s (decide (GetNonFungibleTokenValue db (s - 1) = tA))).2 e
      (decide (GetNonFungibleTokenValue db (e + 1) = tA))).2,
      y.1 ≠ (moveNewStart db s tA, moveNewEnd db e tA) := by
    intro y hy hk
    rcases (hr2 y).mp hy with ⟨hnb, hgs, rfl⟩ | ⟨hnA, heh, rfl⟩ |
      ⟨hym, hyne, -, -⟩
    · simp only [Prod.mk.injEq] at hk
      omega
    · simp only [Prod.mk.injEq] at hk
      omega
    · refine hyne (M.mem_R_interval hym (t := s) ?_ ?_ hg (by omega))
      · rw [hk]; simpa using hS_le
      · rw [hk]; simp; omega
  simp only [moveAbsorb]
  rw [hl1, hr1, mem_AddRange_fresh hfresh, hr2 x]
  unfold movePost phiRight
  tauto

/-- Membership characterization of `MoveNonFungibleTokens` on a successful
call whose covering range is `((g, h), fA)`. -/
theorem move_mem_of_R (M : MoveSetting db s e g h fA) (hta : tA ≠ "") :
    ∀ x, x ∈ (MoveNonFungibleTokens db s e fA tA).2 ↔
      movePost db s e fA tA g h x := by
  intro x
  have hs := M.hs
  have hse := M.hse
  have hg := M.hg
  have hh := M.hh
  have howner : GetNonFungibleTokenValueInRange db s e = fA :=
    GetNonFungibleTokenValueInRange_eq M.hno M.hR hse hg hh
  have hGR1 : (GetRange db s).1 = g := by
    rw [GetRange_eq M.hno M.hR hg (t := s) (by simp; omega)]
  have hGR2 : (GetRange db s).2 = h := by
    rw [GetRange_eq M.hno M.hR hg (t := s) (by simp; omega)]
  rw [move_eq_of_owner db s e fA tA howner]
  simp only [hGR1, hGR2]
  exact move_success_mem M hta x

/-- A successful `MoveNonFungibleTokens` returns true exactly when a stored
range owned by the sender covers the moved interval. -/
theorem move_success_iff (hno : NoOverlap db) (hbounds : BoundsOk db)
    (hse : s ≤ e) (hfa : fA ≠ "") :
    ((MoveNonFungibleTokens db s e fA tA).1 = true ↔
      ∃ r ∈ db, r.1.1 ≤ s ∧ e ≤ r.1.2 ∧ r.2 = fA) := by
  by_cases hguard : GetNonFungibleTokenValueInRange db s e = fA
  · have hvne : GetNonFungibleTokenValueInRange db s e ≠ "" := by
      rw [hguard]; exact hfa
    obtain ⟨r, hr, h1, h2, h3⟩ := GetNonFungibleTokenValueInRange_mem hvne
    constructor
    · intro _h
      exact ⟨r, hr, h1, h2, h3.trans hguard⟩
    · intro _h
      rw [move_eq_of_owner db s e fA tA hguard]
  · simp only [MoveNonFungibleTokens, if_pos (by simpa using hguard)]
    constructor
    · intro hc
      exact absurd hc (by simp)
    · rintro ⟨r, hr, h1, h2, h3⟩
      exact absurd (GetNonFungibleTokenValueInRange_eq hno hr hse h1 h2 |>.trans
        h3) hguard

/-- Any previous range kept by `movePost` lies strictly outside the new
`[moveNewStart..moveNewEnd]` interval. -/
theorem movePost_sep (M : MoveSetting db s e g h fA) (hta : tA ≠ "") :
    ∀ z ∈ db, z ≠ ((g, h), fA) →
      ¬ (GetNonFungibleTokenValue db (s - 1) = tA ∧ g = s ∧
          z.1.1 ≤ s - 1 ∧ s - 1 ≤ z.1.2) →
      ¬ (GetNonFungibleTokenValue db (e + 1) = tA ∧ h = e ∧
          z.1.1 ≤ e + 1 ∧ e + 1 ≤ z.1.2) →
      z.1.2 < moveNewStart db s tA ∨ moveNewEnd db e tA < z.1.1 := by
  intro z hz hzne hex1 hex2
  have hs := M.hs
  have hse := M.hse
  have hg := M.hg
  have hh := M.hh
  have hS_le : moveNewStart db s tA ≤ s := moveNewStart_le M.hno hta
  have hE_ge : e ≤ moveNewEnd db e tA := moveNewEnd_ge M.hno hta
  by_contra hc
  push_neg at hc
  obtain ⟨hc1, hc2⟩ := hc
  have hzb := M.hbounds z hz
  have ht1 : z.1.1 ≤ max (moveNewStart db s tA) z.1.1 := le_max_right _ _
  have ht2 : max (moveNewStart db s tA) z.1.1 ≤ z.1.2 := max_le hc1 hzb.2.1
  have ht3 : moveNewStart db s tA ≤ max (moveNewStart db s tA) z.1.1 :=
    le_max_left _ _
  have ht4 : max (moveNewStart db s tA) z.1.1 ≤ moveNewEnd db e tA :=
    max_le (by omega) hc2
  by_cases hts : max (moveNewStart db s tA) z.1.1 < s
  · have hbB : GetNonFungibleTokenValue db (s - 1) = tA := by
      by_contra hnb
      have hSs : moveNewStart db s tA = s := by simp [moveNewStart, hnb]
      omega
    obtain ⟨C, hC, hCeq, hC1, hC2, hCta⟩ := moveNewStart_spec M.hno hta hbB
    have hzC : z = C := contains_unique M.hno hz hC ht1 ht2 (by omega) (by omega)
    by_cases hgs : g < s
    · have hCR : C = ((g, h), fA) :=
        contains_unique M.hno hC M.hR (t := s - 1) hC1 hC2 (by simp; omega)
          (by simp; omega)
      exact hzne (hzC.trans hCR)
    · exact hex1 ⟨hbB, by omega, by rw [hzC]; exact hC1, by rw [hzC]; exact hC2⟩
  · by_cases hte : e < max (moveNewStart db s tA) z.1.1
    · have hbA : GetNonFungibleTokenValue db (e + 1) = tA := by
        by_contra hnA
        have hEe : moveNewEnd db e tA = e := by simp [moveNewEnd, hnA]
        omega
      obtain ⟨C, hC, hCeq, hC1, hC2, hCta⟩ := moveNewEnd_spec M.hno hta hbA
      have hzC : z = C := contains_unique M.hno hz hC ht1 ht2 (by omega)
        (by omega)
      by_cases heh : e < h
      · have hCR : C = ((g, h), fA) :=
          contains_unique M.hno hC M.hR (t := e + 1) hC1 hC2 (by simp; omega)
            (by simp; omega)
        exact hzne (hzC.trans hCR)
      · exact hex2 ⟨hbA, by omega, by rw [hzC]; exact hC1,
          by rw [hzC]; exact hC2⟩
    · exact hzne (M.mem_R_interval hz ht1 ht2 (by omega) (by omega))

/-- Overlap-freedom of the group described by `movePost`. -/
theorem noOverlap_of_movePost (M : MoveSetting db s e g h fA) (hta : tA ≠ "")
    {L : List TokenRange}
    (hmem : ∀ x, x ∈ L ↔ movePost db s e fA tA g h x) : NoOverlap L := by
  have hs := M.hs
  have hse := M.hse
  have hg := M.hg
  have hh := M.hh
  have hS_le : moveNewStart db s tA ≤ s := moveNewStart_le M.hno hta
  have hE_ge : e ≤ moveNewEnd db e tA := moveNewEnd_ge M.hno hta
  have hsep := movePost_sep M hta
  have hdisj : ∀ z ∈ db, z ≠ ((g, h), fA) → ∀ t1 t2 : Int, g ≤ t1 → t2 ≤ h →
      t1 ≤ t2 → z.1.2 < t1 ∨ t2 < z.1.1 := by
    intro z hz hzne t1 t2 ht1 ht2 ht12
    by_contra hcc
    push_neg at hcc
    have hzb := M.hbounds z hz
    exact hzne (M.mem_R_interval hz (t := max z.1.1 t1)
      (le_max_left _ _) (by omega) (by omega) (by omega))
  intro x hx y hy hne
  rcases (hmem x).mp hx with rfl | ⟨hnbx, hgsx, rfl⟩ | ⟨hnax, hehx, rfl⟩ |
      ⟨hxm, hxne, hex1x, hex2x⟩ <;>
    rcases (hmem y).mp hy with rfl | ⟨hnby, hgsy, rfl⟩ | ⟨hnay, hehy, rfl⟩ |
      ⟨hym, hyne, hex1y, hex2y⟩
  · exact absurd rfl hne
  · have hSs : moveNewStart db s tA = s := by simp [moveNewStart, hnby]
    right; simp; omega
  · have hEe : moveNewEnd db e tA = e := by simp [moveNewEnd, hnay]
    left; simp; omega
  · rcases hsep y hym hyne hex1y hex2y with hd | hd
    · right; simpa using hd
    · left; simpa using hd
  · have hSs : moveNewStart db s tA = s := by simp [moveNewStart, hnbx]
    left; simp; omega
  · exact absurd rfl hne
  · left; simp; omega
  · rcases hdisj y hym hyne g (s - 1) le_rfl (by omega) (by omega) with hd | hd
    · right; simpa using hd
    · left; simpa using hd
  · have hEe : moveNewEnd db e tA = e := by simp [moveNewEnd, hnax]
    right; simp; omega
  · right; simp; omega
  · exact absurd rfl hne
  · rcases hdisj y hym hyne (e + 1) h (by omega) le_rfl (by omega) with hd | hd
    · right; simpa using hd
    · left; simpa using hd
  · rcases hsep x hxm hxne hex1x hex2x with hd | hd
    · left; simpa using hd
    · right; simpa using hd
  · rcases hdisj x hxm hxne g (s - 1) le_rfl (by omega) (by omega) with hd | hd
    · left; simpa using hd
    · right; simpa using hd
  · rcases hdisj x hxm hxne (e + 1) h (by omega) le_rfl (by omega) with hd | hd
    · left; simpa using hd
    · right; simpa using hd
  · exact M.hno x hxm y hym hne

/-- The coalescing invariant of the group described by `movePost`. -/
theorem noAdjacent_of_movePost (M : MoveSetting db s e g h fA)
    (hadj : NoAdjacentSameOwner db) (hta : tA ≠ "") {L : List TokenRange}
    (hmem : ∀ x, x ∈ L ↔ movePost db s e fA tA g h x) :
    NoAdjacentSameOwner L := by
  have hs := M.hs
  have hse := M.hse
  have hg := M.hg
  have hh := M.hh
  have hS_le : moveNewStart db s tA ≤ s := moveNewStart_le M.hno hta
  have hE_ge : e ≤ moveNewEnd db e tA := moveNewEnd_ge M.hno hta
  have hRs1 : g < s → GetNonFungibleTokenValue db (s - 1) = fA := fun hgs =>
    GetNonFungibleTokenValue_eq M.hno M.hR (by simp; omega) (by simp; omega)
  have hRe1 : e < h → GetNonFungibleTokenValue db (e + 1) = fA := fun heh =>
    GetNonFungibleTokenValue_eq M.hno M.hR (by simp; omega) (by simp; omega)
  intro x hx y hy hxy
  rcases (hmem x).mp hx with rfl | ⟨hnbx, hgsx, rfl⟩ | ⟨hnax, hehx, rfl⟩ |
      ⟨hxm, hxne, hex1x, hex2x⟩ <;>
    rcases (hmem y).mp hy with rfl | ⟨hnby, hgsy, rfl⟩ | ⟨hnay, hehy, rfl⟩ |
      ⟨hym, hyne, hex1y, hex2y⟩
  · -- new, new
    exfalso
    have hxy' : moveNewEnd db e tA + 1 = moveNewStart db s tA := hxy
    omega
  · -- new, left residual
    exfalso
    have hxy' : moveNewEnd db e tA + 1 = g := hxy
    omega
  · -- new, right residual
    have hxy' : moveNewEnd db e tA + 1 = e + 1 := hxy
    show tA ≠ fA
    intro hc
    exact hnay ((hRe1 hehy).trans hc.symm)
  · -- new, old
    have hxy' : moveNewEnd db e tA + 1 = y.1.1 := hxy
    show tA ≠ y.2
    intro hc
    by_cases hbA : GetNonFungibleTokenValue db (e + 1) = tA
    · obtain ⟨C, hC, hCeq, hC1, hC2, hCta⟩ := moveNewEnd_spec M.hno hta hbA
      exact (hadj C hC y hym (by omega)) (hCta.trans hc)
    · have hEe : moveNewEnd db e tA = e := by simp [moveNewEnd, hbA]
      have hyb := M.hbounds y hym
      have hval : GetNonFungibleTokenValue db (e + 1) = y.2 :=
        GetNonFungibleTokenValue_eq M.hno hym (by omega) (by omega)
      exact hbA (hval.trans hc.symm)
  · -- left residual, new
    have hxy' : s - 1 + 1 = moveNewStart db s tA := hxy
    show fA ≠ tA
    intro hc
    exact hnbx ((hRs1 hgsx).trans hc)
  · -- left residual twice
    exfalso
    have hxy' : s - 1 + 1 = g := hxy
    omega
  · -- left residual, right residual
    exfalso
    have hxy' : s - 1 + 1 = e + 1 := hxy
    omega
  · -- left residual, old
    exfalso
    have hxy' : s - 1 + 1 = y.1.1 := hxy
    have hyb := M.hbounds y hym
    exact hyne (M.mem_R_interval hym (t := s) (by omega) (by omega) hg
      (by omega))
  · -- right residual, new
    exfalso
    have hxy' : h + 1 = moveNewStart db s tA := hxy
    omega
  · -- right residual, left residual
    exfalso
    have hxy' : h + 1 = g := hxy
    omega
  · -- right residual twice
    exfalso
    have hxy' : h + 1 = e + 1 := hxy
    omega
  · -- right residual, old
    have hxy' : h + 1 = y.1.1 := hxy
    exact fun hc => (hadj _ M.hR y hym (by simpa using hxy')) hc
  · -- old, new
    have hxy' : x.1.2 + 1 = moveNewStart db s tA := hxy
    show x.2 ≠ tA
    intro hc
    by_cases hbB : GetNonFungibleTokenValue db (s - 1) = tA
    · obtain ⟨C, hC, hCeq, hC1, hC2, hCta⟩ := moveNewStart_spec M.hno hta hbB
      exact (hadj x hxm C hC (by omega)) (hc.trans hCta.symm)
    · have hSs : moveNewStart db s tA = s := by simp [moveNewStart, hbB]
      have hxb := M.hbounds x hxm
      have hval : GetNonFungibleTokenValue db (s - 1) = x.2 :=
        GetNonFungibleTokenValue_eq M.hno hxm (by omega) (by omega)
      exact hbB (hval.trans hc)
  · -- old, left residual
    have hxy' : x.1.2 + 1 = g := hxy
    exact fun hc => (hadj x hxm _ M.hR (by simpa using hxy')) hc
  · -- old, right residual
    exfalso
    have hxy' : x.1.2 + 1 = e + 1 := hxy
    have hxb := M.hbounds x hxm
    exact hxne (M.mem_R_interval hxm (t := e) (by omega) (by omega) (by omega)
      (by omega))
  · -- old, old
    exact hadj x hxm y hym hxy

end MoveCharacterization

/-- C3: an NFT move over a well-formed `RangeIndex` group succeeds exactly
when some stored range owned by the sender covers the moved interval (such
a range is unique, the group being overlap-free); and on a successful call
whose covering range is `((g, h), fA)`, the resulting group consists
exactly of the recipient's new range — extended left (right) to the range
containing `start-1` (`end+1`) when that range's owner equals the
recipient — the sender's residual segments outside the moved interval when
not absorbed, and every other previous range, with the covering range and
the absorbed neighbours removed (`movePost`). -/
theorem spec_C3_moveOwningRange (db : List TokenRange) (s e : Int)
    (fA tA : String) (hno : NoOverlap db) (hbounds : BoundsOk db)
    (hs : 1 ≤ s) (hse : s ≤ e) (hfa : fA ≠ "") (hta : tA ≠ "") :
    ((MoveNonFungibleTokens db s e fA tA).1 = true ↔
      ∃ r ∈ db, r.1.1 ≤ s ∧ e ≤ r.1.2 ∧ r.2 = fA) ∧
    ∀ g h, ((g, h), fA) ∈ db → g ≤ s → e ≤ h →
      ∀ x, x ∈ (MoveNonFungibleTokens db s e fA tA).2 ↔
        movePost db s e fA tA g h x := by
  refine ⟨move_success_iff hno hbounds hse hfa, ?_⟩
  intro g h hR hg hh
  exact move_mem_of_R ⟨hno, hbounds, hs, hse, hR, hg, hh⟩ hta

/-- Witness for C3 at a concrete well-formed group: moving `[3..5]` out of
the stored range `[1..10]` owned by the sender. -/
theorem spec_C3_moveOwningRange_witness :
    ((MoveNonFungibleTokens [((1, 10), "A")] 3 5 "A" "B").1 = true ↔
      ∃ r ∈ ([((1, 10), "A")] : List TokenRange),
        r.1.1 ≤ 3 ∧ 5 ≤ r.1.2 ∧ r.2 = "A") ∧
    ∀ g h, ((g, h), "A") ∈ ([((1, 10), "A")] : List TokenRange) →
      g ≤ 3 → 5 ≤ h →
      ∀ x, x ∈ (MoveNonFungibleTokens [((1, 10), "A")] 3 5 "A" "B").2 ↔
        movePost [((1, 10), "A")] 3 5 "A" "B" g h x :=
  spec_C3_moveOwningRange [((1, 10), "A")] 3 5 "A" "B"
    (by unfold NoOverlap; decide) (by unfold BoundsOk; decide)
    (by decide) (by decide) (by decide) (by decide)

/-- Both invariants after any `MoveNonFungibleTokens` call, successful or
not. -/
theorem move_invariants (db : List TokenRange) (s e : Int) (fA tA : String)
    (hno : NoOverlap db) (hbounds : BoundsOk db)
    (hadj : NoAdjacentSameOwner db) (hs : 1 ≤ s) (hse : s ≤ e)
    (hfa : fA ≠ "") (hta : tA ≠ "") :
    NoOverlap (MoveNonFungibleTokens db s e fA tA).2 ∧
    NoAdjacentSameOwner (MoveNonFungibleTokens db s e fA tA).2 := by
  by_cases hguard : GetNonFungibleTokenValueInRange db s e = fA
  · have hvne : GetNonFungibleTokenValueInRange db s e ≠ "" := by
      rw [hguard]; exact hfa
    obtain ⟨r, hr, h1, h2, h3⟩ := GetNonFungibleTokenValueInRange_mem hvne
    have hrfa : r.2 = fA := h3.trans hguard
    have hR : ((r.1.1, r.1.2), fA) ∈ db := by
      rw [show ((r.1.1, r.1.2), fA) = r from by rw [← hrfa]]
      exact hr
    have M : MoveSetting db s e r.1.1 r.1.2 fA :=
      ⟨hno, hbounds, hs, hse, hR, h1, h2⟩
    have hmem := move_mem_of_R M hta
    exact ⟨noOverlap_of_movePost M hta hmem,
      noAdjacent_of_movePost M hadj hta hmem⟩
  · have hfail : MoveNonFungibleTokens db s e fA tA = (false, db) := by
      simp only [MoveNonFungibleTokens, if_pos (by simpa using hguard)]
    rw [hfail]
    exact ⟨hno, hadj⟩

theorem foldl_max_init_le (l : List TokenRange) (a : Int) :
    a ≤ l.foldl (fun m r => max m (max r.1.1 r.1.2)) a := by
  induction l generalizing a with
  | nil => simp
  | cons r rs ih => exact le_trans (le_max_left _ _) (ih _)

theorem foldl_max_mem (l : List TokenRange) (a : Int) :
    ∀ r ∈ l,
      max r.1.1 r.1.2 ≤ l.foldl (fun m r => max m (max r.1.1 r.1.2)) a := by
  induction l generalizing a with
  | nil => simp
  | cons q qs ih =>
    intro r hr
    rcases List.mem_cons.mp hr with rfl | hr'
    · exact le_trans (le_max_right _ _) (foldl_max_init_le qs _)
    · exact ih _ r hr'

/-- Every stored key component is at most the highest range end. -/
theorem le_GetHighestRangeEnd {db : List TokenRange} {r : TokenRange}
    (hr : r ∈ db) :
    r.1.1 ≤ GetHighestRangeEnd db ∧ r.1.2 ≤ GetHighestRangeEnd db := by
  have hm := foldl_max_mem db 0 r hr
  unfold GetHighestRangeEnd
  exact ⟨le_trans (le_max_left _ _) hm, le_trans (le_max_right _ _) hm⟩

theorem GetHighestRangeEnd_nonneg (db : List TokenRange) :
    0 ≤ GetHighestRangeEnd db :=
  foldl_max_init_le db 0

/-- Both invariants after `CreateNonFungibleTokens` (no overflow and a
positive amount). -/
theorem create_invariants (st : NftState) (amount : Int) (owner info : String)
    (hno : NoOverlap st.rangeIndex) (hbounds : BoundsOk st.rangeIndex)
    (hadj : NoAdjacentSameOwner st.rangeIndex) (hamt : 1 ≤ amount)
    (howner : owner ≠ "")
    (hroom : GetHighestRangeEnd st.rangeIndex + amount ≤ INT64_MAX) :
    NoOverlap (CreateNonFungibleTokens st amount owner info).1.rangeIndex ∧
    NoAdjacentSameOwner
      (CreateNonFungibleTokens st amount owner info).1.rangeIndex := by
  have hnn := GetHighestRangeEnd_nonneg st.rangeIndex
  by_cases hcase : GetNonFungibleTokenValue st.rangeIndex
      (GetHighestRangeEnd st.rangeIndex) = owner
  · -- the recipient owns the range ending at the highest id: coalesce
    have hvne : GetNonFungibleTokenValue st.rangeIndex
        (GetHighestRangeEnd st.rangeIndex) ≠ "" := by
      rw [hcase]; exact howner
    obtain ⟨C, hC, hC1, hC2, hCval⟩ := GetNonFungibleTokenValue_exists hvne
    have hCown : C.2 = owner := by rw [hCval, hcase]
    have hGR : GetRange st.rangeIndex (GetHighestRangeEnd st.rangeIndex) =
        C.1 := GetRange_eq hno hC hC1 hC2
    have hC2H : C.1.2 = GetHighestRangeEnd st.rangeIndex := by
      have := (le_GetHighestRangeEnd hC).2
      omega
    have hres : (CreateNonFungibleTokens st amount owner info).1.rangeIndex =
        AddRange (DeleteRange st.rangeIndex C.1.1 C.1.2) C.1.1
          (GetHighestRangeEnd st.rangeIndex + amount) owner := by
      simp only [CreateNonFungibleTokens, if_neg (by omega : ¬ amount < 0)]
      simp only [hcase, hGR, if_neg (by omega :
        ¬ GetHighestRangeEnd st.rangeIndex > INT64_MAX - amount), if_pos rfl]
      simp
    have hfresh : ∀ y ∈ DeleteRange st.rangeIndex C.1.1 C.1.2,
        y.1 ≠ (C.1.1, GetHighestRangeEnd st.rangeIndex + amount) := by
      intro y hy hk
      have hym := (mem_DeleteRange.mp hy).1
      have := (le_GetHighestRangeEnd hym).2
      have hk2 : y.1.2 = GetHighestRangeEnd st.rangeIndex + amount := by
        rw [hk]
      omega
    have hkeyC : ∀ y ∈ st.rangeIndex, y.1 = (C.1.1, C.1.2) → y = C := by
      intro y hy hk
      refine contains_unique hno hy hC (t := GetHighestRangeEnd st.rangeIndex)
        ?_ ?_ hC1 hC2
      · rw [hk]; simpa using hC1
      · rw [hk]; simp; omega
    have hmem : ∀ x, x ∈ (CreateNonFungibleTokens st amount owner
        info).1.rangeIndex ↔
        x = ((C.1.1, GetHighestRangeEnd st.rangeIndex + amount), owner) ∨
        (x ∈ st.rangeIndex ∧ x ≠ C) := by
      intro x
      rw [hres, mem_AddRange_fresh hfresh, mem_DeleteRange]
      constructor
      · rintro (rfl | ⟨hx, hk⟩)
        · exact Or.inl rfl
        · exact Or.inr ⟨hx, fun hc => hk (by rw [hc])⟩
      · rintro (rfl | ⟨hx, hne⟩)
        · exact Or.inl rfl
        · exact Or.inr ⟨hx, fun hk => hne (hkeyC x hx hk)⟩
    have hCb := hbounds C hC
    constructor
    · intro x hx y hy hne
      rcases (hmem x).mp hx with rfl | ⟨hxm, hxne⟩ <;>
        rcases (hmem y).mp hy with rfl | ⟨hym, hyne⟩
      · exact absurd rfl hne
      · -- new vs old
        by_contra hcc
        push_neg at hcc
        have hyb := hbounds y hym
        have hyH := (le_GetHighestRangeEnd hym).2
        refine hyne (contains_unique hno hym hC (t := max y.1.1 C.1.1)
          (le_max_left _ _) ?_ (le_max_right _ _) ?_) <;> simp at hcc <;> omega
      · by_contra hcc
        push_neg at hcc
        have hxb := hbounds x hxm
        have hxH := (le_GetHighestRangeEnd hxm).2
        refine hxne (contains_unique hno hxm hC (t := max x.1.1 C.1.1)
          (le_max_left _ _) ?_ (le_max_right _ _) ?_) <;> simp at hcc <;> omega
      · exact hno x hxm y hym hne
    · intro x hx y hy hxy
      rcases (hmem x).mp hx with rfl | ⟨hxm, hxne⟩ <;>
        rcases (hmem y).mp hy with rfl | ⟨hym, hyne⟩
      · exfalso
        have hxy' : GetHighestRangeEnd st.rangeIndex + amount + 1 = C.1.1 :=
          hxy
        omega
      · exfalso
        have hxy' : GetHighestRangeEnd st.rangeIndex + amount + 1 = y.1.1 :=
          hxy
        have hyb := hbounds y hym
        have hyH := (le_GetHighestRangeEnd hym).2
        omega
      · have hxy' : x.1.2 + 1 = C.1.1 := hxy
        exact fun hc => (hadj x hxm C hC (by omega)) (hc.trans hCown.symm)
      · exact hadj x hxm y hym hxy
  · -- fresh range appended after the highest id
    have hres : (CreateNonFungibleTokens st amount owner info).1.rangeIndex =
        AddRange st.rangeIndex (GetHighestRangeEnd st.rangeIndex + 1)
          (GetHighestRangeEnd st.rangeIndex + amount) owner := by
      simp only [CreateNonFungibleTokens, if_neg (by omega : ¬ amount < 0)]
      simp only [hcase, if_neg (by omega :
        ¬ GetHighestRangeEnd st.rangeIndex > INT64_MAX - amount),
        if_neg hcase]
      simp
    have hfresh : ∀ y ∈ st.rangeIndex,
        y.1 ≠ (GetHighestRangeEnd st.rangeIndex + 1,
          GetHighestRangeEnd st.rangeIndex + amount) := by
      intro y hy hk
      have := (le_GetHighestRangeEnd hy).2
      have hk2 : y.1.2 = GetHighestRangeEnd st.rangeIndex + amount := by
        rw [hk]
      omega
    have hmem : ∀ x, x ∈ (CreateNonFungibleTokens st amount owner
        info).1.rangeIndex ↔
        x = ((GetHighestRangeEnd st.rangeIndex + 1,
          GetHighestRangeEnd st.rangeIndex + amount), owner) ∨
        x ∈ st.rangeIndex := by
      intro x
      rw [hres, mem_AddRange_fresh hfresh]
    constructor
    · intro x hx y hy hne
      rcases (hmem x).mp hx with rfl | hxm <;>
        rcases (hmem y).mp hy with rfl | hym
      · exact absurd rfl hne
      · right
        have := (le_GetHighestRangeEnd hym).2
        simp
        omega
      · left
        have := (le_GetHighestRangeEnd hxm).2
        simp
        omega
      · exact hno x hxm y hym hne
    · intro x hx y hy hxy
      rcases (hmem x).mp hx with rfl | hxm <;>
        rcases (hmem y).mp hy with rfl | hym
      · exfalso
        have hxy' : GetHighestRangeEnd st.rangeIndex + amount + 1 =
            GetHighestRangeEnd st.rangeIndex + 1 := hxy
        omega
      · exfalso
        have hxy' : GetHighestRangeEnd st.rangeIndex + amount + 1 = y.1.1 :=
          hxy
        have hyb := hbounds y hym
        have := (le_GetHighestRangeEnd hym).2
        omega
      · have hxy' : x.1.2 + 1 = GetHighestRangeEnd st.rangeIndex + 1 := hxy
        have hxb := hbounds x hxm
        have hval : GetNonFungibleTokenValue st.rangeIndex
            (GetHighestRangeEnd st.rangeIndex) = x.2 :=
          GetNonFungibleTokenValue_eq hno hxm (by omega) (by omega)
        exact fun hc => hcase (hval.trans hc)
      · exact hadj x hxm y hym hxy

/-- `ChangeNonFungibleTokenData` on a data group never touches the
`RangeIndex` group. -/
theorem changeData_rangeIndex (st : NftState) (s e : Int) (data : String)
    (storage : NonFungibleStorage)
    (h1 : storage ≠ NonFungibleStorage.RangeIndex)
    (h2 : storage ≠ NonFungibleStorage.NoneKind) :
    (ChangeNonFungibleTokenData st s e data storage).rangeIndex =
      st.rangeIndex := by
  cases storage with
  | NoneKind => exact absurd rfl h2
  | RangeIndex => exact absurd rfl h1
  | IssuerData => rfl
  | HolderData => rfl
  | GrantData => rfl

/-- C4: after any NFT-database mutation — a move, a data change on one of
the data groups, or a creation of fresh tokens without `int64` overflow —
the `RangeIndex` group of the property stays overlap-free, and no two
adjacent ranges share an owner. -/
theorem spec_C4_rangeDisjointness (st : NftState)
    (hno : NoOverlap st.rangeIndex) (hbounds : BoundsOk st.rangeIndex)
    (hadj : NoAdjacentSameOwner st.rangeIndex) :
    (∀ s e fA tA, 1 ≤ s → s ≤ e → fA ≠ "" → tA ≠ "" →
      NoOverlap (moveTokensOnState st s e fA tA).2.rangeIndex ∧
      NoAdjacentSameOwner (moveTokensOnState st s e fA tA).2.rangeIndex) ∧
    (∀ s e data storage, storage ≠ NonFungibleStorage.RangeIndex →
      storage ≠ NonFungibleStorage.NoneKind →
      NoOverlap (ChangeNonFungibleTokenData st s e data storage).rangeIndex ∧
      NoAdjacentSameOwner
        (ChangeNonFungibleTokenData st s e data storage).rangeIndex) ∧
    (∀ amount owner info, 1 ≤ amount → owner ≠ "" →
      GetHighestRangeEnd st.rangeIndex + amount ≤ INT64_MAX →
      NoOverlap (CreateNonFungibleTokens st amount owner info).1.rangeIndex ∧
      NoAdjacentSameOwner
        (CreateNonFungibleTokens st amount owner info).1.rangeIndex) := by
  refine ⟨?_, ?_, ?_⟩
  · intro s e fA tA hs hse hfa hta
    exact move_invariants st.rangeIndex s e fA tA hno hbounds hadj hs hse hfa
      hta
  · intro s e data storage h1 h2
    rw [changeData_rangeIndex st s e data storage h1 h2]
    exact ⟨hno, hadj⟩
  · intro amount owner info hamt howner hroom
    exact create_invariants st amount owner info hno hbounds hadj hamt howner
      hroom

/-- Witness for C4 at a concrete well-formed state. -/
theorem spec_C4_rangeDisjointness_witness :
    (∀ s e fA tA, 1 ≤ s → s ≤ e → fA ≠ "" → tA ≠ "" →
      NoOverlap (moveTokensOnState ⟨[((1, 5), "A")], [], [], []⟩ s e fA
        tA).2.rangeIndex ∧
      NoAdjacentSameOwner (moveTokensOnState ⟨[((1, 5), "A")], [], [], []⟩
        s e fA tA).2.rangeIndex) ∧
    (∀ s e data storage, storage ≠ NonFungibleStorage.RangeIndex →
      storage ≠ NonFungibleStorage.NoneKind →
      NoOverlap (ChangeNonFungibleTokenData ⟨[((1, 5), "A")], [], [], []⟩
        s e data storage).rangeIndex ∧
      NoAdjacentSameOwner (ChangeNonFungibleTokenData
        ⟨[((1, 5), "A")], [], [], []⟩ s e data storage).rangeIndex) ∧
    (∀ amount owner info, 1 ≤ amount → owner ≠ "" →
      GetHighestRangeEnd (NftState.rangeIndex ⟨[((1, 5), "A")], [], [], []⟩) +
        amount ≤ INT64_MAX →
      NoOverlap (CreateNonFungibleTokens ⟨[((1, 5), "A")], [], [], []⟩
        amount owner info).1.rangeIndex ∧
      NoAdjacentSameOwner (CreateNonFungibleTokens
        ⟨[((1, 5), "A")], [], [], []⟩ amount owner info).1.rangeIndex) :=
  spec_C4_rangeDisjointness ⟨[((1, 5), "A")], [], [], []⟩
    (by unfold NoOverlap; decide) (by unfold BoundsOk; decide)
    (by unfold NoAdjacentSameOwner; decide)

end OmniCore
